import Mathlib

set_option linter.unusedVariables false

/-! # Verification of the command execution and privilege-escalation subsystem

Shallow embedding of `src/workstation_orchestrator/helpers/subprocess_helper.py`
(tokenizer, self-install guard, elevation decision, rewriter, execution engine)
and the exit-code acceptance logic of `modules/command/command.py`.
Python strings are `List Char`; a Python token (one word of a command) is
`Word := List Char`. -/

namespace WsOrch

/-- The single-quote character (written via its code point). -/
def squote : Char := Char.ofNat 39

/-- The double-quote character. -/
def dquote : Char := Char.ofNat 34

/-- The backslash character. -/
def bslash : Char := Char.ofNat 92

/-- Python `str.isspace` over the ASCII range that command text uses. -/
def pyIsSpace (c : Char) : Bool :=
  c == ' ' || c == '\t' || c == '\n' || c == '\r' || c == '\x0b' || c == '\x0c'

/-- A Python word: one token of a command segment. -/
abbrev Word := List Char

/-- `char in ["'", '"']` from the `parse_command` scan loop. -/
def isQuoteChar (c : Char) : Bool := c == squote || c == dquote

/-- The chain-operator words recognized by `parse_command`: `&&`, `||`, `|`. -/
def isChainOp (w : Word) : Bool :=
  w == ['&', '&'] || w == ['|', '|'] || w == ['|']

/-- Scanner state of the character loop in `parse_command`. `q = some c` models
`in_quotes = True, quote_char = c`; the loop keeps the invariant that
`quote_char` is `None` whenever `in_quotes` is false, so one `Option Char`
captures both variables. -/
structure ScanSt where
  parts : List (List Word)
  seps : List Word
  cur : List Word
  curW : Word
  q : Option Char
deriving DecidableEq, Repr

/-- Initial scanner state. -/
def initSt : ScanSt := ⟨[], [], [], [], none⟩

/-- The word flush performed when unquoted whitespace ends `current_word`:
a chain-operator word closes the current segment (and is dropped when the
segment is empty), any other word joins the current segment. -/
def flushWord (st : ScanSt) : ScanSt :=
  if st.curW = [] then st
  else if isChainOp st.curW then
    if st.cur = [] then { st with cur := [], curW := [] }
    else { st with parts := st.parts ++ [st.cur], seps := st.seps ++ [st.curW],
                   cur := [], curW := [] }
  else { st with cur := st.cur ++ [st.curW], curW := [] }

/-- One character of the `parse_command` scan loop. -/
def scanStep (st : ScanSt) (c : Char) : ScanSt :=
  if isQuoteChar c && (st.q == none || st.q == some c) then
    { st with curW := st.curW ++ [c],
              q := match st.q with | none => some c | some _ => none }
  else if pyIsSpace c && st.q == none then flushWord st
  else { st with curW := st.curW ++ [c] }

/-- The `# Handle last word` block of `parse_command`. -/
def finishScan (st : ScanSt) : List (List Word) × List Word :=
  if st.curW = [] then (st.parts, st.seps)
  else if isChainOp st.curW then
    if st.cur = [] then (st.parts, st.seps)
    else (st.parts ++ [st.cur], st.seps ++ [st.curW])
  else (st.parts ++ [st.cur ++ [st.curW]], st.seps)

/-- Python `parts or [[]]`. -/
def orEmptySegment (parts : List (List Word)) : List (List Word) :=
  if parts = [] then [[]] else parts

/-- The whole scan including the final `return parts or [[]], separators`. -/
def scanChars (cs : List Char) : List (List Word) × List Word :=
  (orEmptySegment (finishScan (cs.foldl scanStep initSt)).1,
   (finishScan (cs.foldl scanStep initSt)).2)

/-- Worker for Python `str.split()`: split on whitespace runs, drop empties. -/
def pySplitGo (acc : Word) : List Char → List Word
  | [] => if acc = [] then [] else [acc]
  | c :: cs =>
    if pyIsSpace c then
      (if acc = [] then pySplitGo [] cs else acc :: pySplitGo [] cs)
    else pySplitGo (acc ++ [c]) cs

/-- Python `cmd.split()`. -/
def pySplit (cs : List Char) : List Word := pySplitGo [] cs

/-- Python `" ".join(ws)`. -/
def joinWords : List Word → List Char
  | [] => []
  | [w] => w
  | w :: ws => w ++ ' ' :: joinWords ws

/-- `" ".join(cmd.split())` — the whitespace normalization in `parse_command`. -/
def normalize (cs : List Char) : List Char := joinWords (pySplit cs)

/-- Command input: a Python string or an argv list (the `cmd` argument). -/
inductive Cmd where
  | str (s : List Char)
  | list (ws : List Word)
deriving DecidableEq

/-- `parse_command`: an argv list is returned as the single segment; a string
containing a newline is one segment holding one token (the whole block);
otherwise the scan runs on the whitespace-normalized text. The
`replace("\\\n", " ")` call in the source is the identity on this branch:
any string containing backslash-newline contains a newline and already took
the multiline branch. -/
def parse_command : Cmd → List (List Word) × List Word
  | .list ws => ([ws], [])
  | .str s => if '\n' ∈ s then ([[s]], []) else scanChars (normalize s)

/-- Python `.lower()` (ASCII). -/
def lowerW (w : Word) : Word := w.map Char.toLower

/-- The elevation-tool token. -/
def sudoW : Word := "sudo".data

/-- Python `word.startswith("-")`. -/
def startsDash (w : Word) : Bool := w.head? == some '-'

/-- The `start_idx` skip used by the self-install guard and the Windows strip:
drop a leading `sudo` token (case-insensitive) and the `-` flags after it. -/
def skipSudoFlags (ws : List Word) : List Word :=
  match ws with
  | [] => []
  | w :: rest => if lowerW w = sudoW then rest.dropWhile (fun t => startsDash t) else ws

/-- `"pacman"`. -/
def pacmanW : Word := "pacman".data

/-- The literal `-S` action of pacman (compared case-sensitively). -/
def dashSW : Word := "-S".data

/-- `"install"`. -/
def installW : Word := "install".data

/-- The package managers whose `install` action the self-install guard knows. -/
def aptLikePMs : List Word :=
  ["apt".data, "apt-get".data, "yum".data, "dnf".data, "zypper".data]

/-- `word.split("=")[0]`: the text before the first `=`. -/
def beforeEq (w : Word) : Word := w.takeWhile (fun c => c ≠ '=')

/-- `_is_single_command_installing_sudo`: after skipping a leading `sudo` and
its flags there must be at least a package-manager word and an action word
(`start_idx >= len(words) - 1` returns false otherwise); on a recognized
manager/action pair, scan the non-flag package words for a bare `sudo`
(version suffixes `=...` stripped before comparison). -/
def isSingleInstallingSudo (ws : List Word) : Bool :=
  match skipSudoFlags ws with
  | pkgm :: action :: more =>
    if (lowerW pkgm = pacmanW ∧ action = dashSW)
        ∨ (lowerW pkgm ∈ aptLikePMs ∧ lowerW action = installW) then
      (more.filter (fun t => !startsDash t)).any (fun t => lowerW (beforeEq t) == sudoW)
    else false
  | _ => false

/-- `is_installing_sudo`: any chain segment installing sudo makes it true. -/
def is_installing_sudo (cmd : Cmd) : Bool :=
  ((parse_command cmd).1).any isSingleInstallingSudo

/-- `os.path.isabs` on POSIX: the path starts with a slash. -/
def isAbsW (w : Word) : Bool := w.head? == some '/'

/-- Host facts consulted by `command_needs_sudo`: the memoized
`is_sudo_available` probe, `os.name == "nt"`, and the filesystem lookups of
the permission fallback. `which_executable` records the documented behavior
of `shutil.which`, whose default mode only returns paths that pass an
execute-permission check. -/
structure Env where
  sudoAvailable : Bool
  isWindows : Bool
  pathExists : Word → Bool
  whichPath : Word → Option Word
  accessX : Word → Bool
  which_executable : ∀ w p, whichPath w = some p → accessX p = true

/-- The `cmd_path` resolution plus the `os.access(cmd_path, os.X_OK)` test of
`command_needs_sudo`: true when a path resolves and is not executable. -/
def execCheckFails (env : Env) (w : Word) : Bool :=
  match (if isAbsW w && env.pathExists w then some w else env.whichPath w) with
  | some p => !env.accessX p
  | none => false

/-- `"net"`. -/
def netW : Word := "net".data

/-- `"user"`. -/
def userW : Word := "user".data

/-- The Windows `admin_commands` list. -/
def winAdminCommands : List Word :=
  ["net".data, "sc".data, "reg".data, "bcdedit".data, "diskpart".data,
   "chkdsk".data, "format".data]

/-- The Windows `admin_operations` sub-verbs of `net`. -/
def winAdminOperations : List Word :=
  ["user".data, "localgroup".data, "accounts".data, "share".data]

/-- The fixed `sudo_commands` list of `command_needs_sudo`. -/
def sudoCommands : List Word :=
  ["apt".data, "apt-get".data, "dnf".data, "yum".data, "pacman".data, "rpm".data,
   "dpkg".data, "systemctl".data, "service".data, "mount".data, "umount".data,
   "fdisk".data, "mkfs".data, "cryptsetup".data, "lvextend".data, "resize2fs".data]

/-- Outcome of one iteration of the part loop of `command_needs_sudo`:
`return True`, `return False`, or `continue` to the next part. -/
inductive PartVerdict where
  | yes
  | no
  | next
deriving DecidableEq

/-- `len(words) > 1 and words[1].lower() == "user"`. -/
def restHeadIsUser : List Word → Bool
  | w1 :: _ => lowerW w1 == userW
  | [] => false

/-- One iteration of the part loop of `command_needs_sudo`. On Windows only the
admin-command table is consulted (`continue` otherwise, and the `net` case
returns the sub-verb test outcome either way); on Unix the cross-platform
`net user` affordance, the fixed privileged-command set, and the
file-permission fallback are tried in order. -/
def needsSudoPart (env : Env) (ws : List Word) : PartVerdict :=
  match ws with
  | [] => .next
  | w :: rest =>
    if env.isWindows then
      if lowerW w ∈ winAdminCommands then
        if lowerW w = netW then
          match rest with
          | w1 :: _ => if lowerW w1 ∈ winAdminOperations then .yes else .no
          | [] => .no
        else .yes
      else .next
    else
      if lowerW w = netW ∧ restHeadIsUser rest = true then .yes
      else if lowerW w ∈ sudoCommands then .yes
      else if execCheckFails env w then .yes
      else .next

/-- The part loop of `command_needs_sudo`, with its early returns. -/
def needsSudoParts (env : Env) : List (List Word) → Bool
  | [] => false
  | p :: ps =>
    match needsSudoPart env p with
    | .yes => true
    | .no => false
    | .next => needsSudoParts env ps

/-- `words and words[0].lower() == "sudo"` for one part. -/
def startsWithSudo (ws : List Word) : Bool :=
  match ws with
  | [] => false
  | w :: _ => lowerW w == sudoW

/-- `command_needs_sudo`: false without the elevation tool; false when any
segment already carries the sudo token; otherwise the part loop decides. -/
def command_needs_sudo (env : Env) (cmd : Cmd) : Bool :=
  if !env.sudoAvailable then false
  else
    let parts := (parse_command cmd).1
    if parts.any startsWithSudo then false
    else needsSudoParts env parts

/-- The per-part rewrite of `run_subprocess`: on Windows strip a leading
`sudo` and its flags, on Unix prepend `sudo` when the part does not already
start with it and `command_needs_sudo` holds for it alone. -/
def processPart (env : Env) (part : List Word) : List Word :=
  if env.isWindows then skipSudoFlags part
  else
    match part with
    | w :: _ =>
      if lowerW w ≠ sudoW ∧ command_needs_sudo env (.list part) then sudoW :: part
      else part
    | [] => part

/-- The part loop of `run_subprocess`: empty parts are skipped (`continue`),
the rest are rewritten in order. -/
def processParts (env : Env) (parts : List (List Word)) : List (List Word) :=
  match parts with
  | [] => []
  | p :: ps => if p = [] then processParts env ps else processPart env p :: processParts env ps

/-- The reconstruction loop of `run_subprocess` for the parts after the first:
part `i` is preceded by separator `i - 1` when one remains. -/
def reconWithSeps : List (List Word) → List Word → List Word
  | [], _ => []
  | p :: rest, [] => p ++ reconWithSeps rest []
  | p :: rest, s :: ss => s :: (p ++ reconWithSeps rest ss)

/-- `final_cmd` reconstruction: the first processed part, then each later part
with its separator interleaved. -/
def reconstruct (pp : List (List Word)) (seps : List Word) : List Word :=
  match pp with
  | [] => []
  | p :: rest => p ++ reconWithSeps rest seps

/-- `run_subprocess` up to the final command: parse, the
`raise ValueError("Empty command")` branch (returned as `none`), per-part
rewriting, reconstruction. -/
def finalTokens (env : Env) (cmd : Cmd) : Option (List Word) :=
  if (parse_command cmd).1 = [] then none
  else some (reconstruct (processParts env (parse_command cmd).1) (parse_command cmd).2)

/-- The final textual command for string input
(`final_cmd = " ".join(final_cmd)`). -/
def finalCmdStr (env : Env) (s : List Char) : Option (List Char) :=
  (finalTokens env (.str s)).map joinWords

/-- A concrete Unix host: sudo available, nothing resolvable on the path. -/
def env0 : Env :=
  ⟨true, false, fun _ => false, fun _ => none, fun _ => false,
   fun _ _ h => Option.noConfusion h⟩

/-- The exit-code acceptance of `run_commands` (`modules/command/command.py`):
a truthy (non-`None`, non-empty) author list is extended with `0`, otherwise
the accepted list is `[0]`. -/
def effectiveValidExitCodes (codes : Option (List Int)) : List Int :=
  match codes with
  | some l => if l ≠ [] then l ++ [0] else [0]
  | none => [0]

/-- The failure test `result.returncode not in valid_exit_codes`. -/
def exitRejected (ret : Int) (codes : Option (List Int)) : Bool :=
  !(effectiveValidExitCodes codes).contains ret

/-! ## Length invariant of the scanner (claim C3) -/

theorem flushWord_lens (st : ScanSt) (h : st.parts.length = st.seps.length) :
    (flushWord st).parts.length = (flushWord st).seps.length := by
  unfold flushWord
  split
  · exact h
  · split
    · split
      · exact h
      · simp [h]
    · exact h

theorem scan_foldl_lens (cs : List Char) :
    ∀ st : ScanSt, st.parts.length = st.seps.length →
      ((cs.foldl scanStep st).parts.length = (cs.foldl scanStep st).seps.length) := by
  induction cs with
  | nil => exact fun st h => h
  | cons c cs ih =>
    intro st h
    simp only [List.foldl_cons]
    apply ih
    unfold scanStep
    split
    · exact h
    · split
      · exact flushWord_lens st h
      · exact h

theorem finishScan_lens (st : ScanSt) (h : st.parts.length = st.seps.length) :
    (finishScan st).2.length = (finishScan st).1.length - 1 ∨
      (finishScan st).2.length = (finishScan st).1.length := by
  unfold finishScan
  split
  · exact Or.inr h.symm
  · split
    · split
      · exact Or.inr h.symm
      · exact Or.inr (by simp [h])
    · exact Or.inl (by simp [h])

theorem scanChars_lens (cs : List Char) :
    (scanChars cs).1 ≠ [] ∧
      ((scanChars cs).2.length = (scanChars cs).1.length - 1 ∨
       (scanChars cs).2.length = (scanChars cs).1.length) := by
  have h := scan_foldl_lens cs initSt rfl
  have hf := finishScan_lens _ h
  unfold scanChars orEmptySegment
  by_cases he : (finishScan (cs.foldl scanStep initSt)).1 = []
  · rw [if_pos he]
    refine ⟨by simp, Or.inl ?_⟩
    rcases hf with h1 | h1 <;> simp [he] at h1 <;> simp [h1]
  · rw [if_neg he]
    exact ⟨he, hf⟩

/-- The parse always yields at least one segment, and the operator count is
at most the segment count, short by one except on a trailing operator. -/
theorem parse_segment_count (cmd : Cmd) :
    (parse_command cmd).1 ≠ [] ∧
      ((parse_command cmd).2.length = (parse_command cmd).1.length - 1 ∨
       (parse_command cmd).2.length = (parse_command cmd).1.length) := by
  cases cmd with
  | list ws => exact ⟨by simp [parse_command], Or.inl (by simp [parse_command])⟩
  | str s =>
    by_cases hn : '\n' ∈ s
    · refine ⟨by simp [parse_command, hn], Or.inl (by simp [parse_command, hn])⟩
    · simpa [parse_command, hn] using scanChars_lens (normalize s)

/-- C3 — corrected. The tokenizer invariant `len(operators) == len(segments) - 1`
fails as stated: a single-line textual input ending in a chain operator
yields as many operators as segments (`"a &&"` gives one segment and one
operator), so an operator token can occupy the trailing position of the
parse. -/
theorem C3_counterexample_trailing_operator :
    (parse_command (.str "a &&".data)).1.length = 1 ∧
    (parse_command (.str "a &&".data)).2.length = 1 ∧
    ¬((parse_command (.str "a &&".data)).2.length =
        (parse_command (.str "a &&".data)).1.length - 1) := by decide

/-- C3 — amended claim: for every single-line textual input the tokenizer
returns a non-empty segment list, and `len(operators)` is either
`len(segments) - 1` or `len(segments)`; the excess case arises exactly from
a trailing chain operator, which the reconstruction later drops. A leading
operator never appears in the parse (it is silently discarded), but a
trailing one can. -/
theorem C3_segment_count_amended (s : List Char) (h : '\n' ∉ s) :
    (parse_command (.str s)).1 ≠ [] ∧
      ((parse_command (.str s)).2.length = (parse_command (.str s)).1.length - 1 ∨
       (parse_command (.str s)).2.length = (parse_command (.str s)).1.length) :=
  parse_segment_count (.str s)

/-- Witness for C3 at the input `"apt update"`. -/
theorem C3_segment_count_amended_witness :
    (parse_command (.str "apt update".data)).1 ≠ [] ∧
      ((parse_command (.str "apt update".data)).2.length =
          (parse_command (.str "apt update".data)).1.length - 1 ∨
       (parse_command (.str "apt update".data)).2.length =
          (parse_command (.str "apt update".data)).1.length) :=
  C3_segment_count_amended "apt update".data (by decide)

/-! ## The elevation rewrite on privileged segments (claims C1, C2) -/

/-- `"net"` is not one of the fixed Unix privileged commands. -/
theorem netW_not_sudoCommand : netW ∉ sudoCommands := by decide

/-- `command_needs_sudo` holds for a single unprefixed segment whose base
command sits in the fixed privileged set, on a Unix host with sudo. -/
theorem command_needs_sudo_single_mem (env : Env) (hs : env.sudoAvailable = true)
    (hw : env.isWindows = false) (w : Word) (rest : List Word)
    (hpm : lowerW w ∈ sudoCommands) (hns : lowerW w ≠ sudoW) :
    command_needs_sudo env (.list (w :: rest)) = true := by
  have hnet : lowerW w ≠ netW := fun hEq => netW_not_sudoCommand (hEq ▸ hpm)
  have hsw : startsWithSudo (w :: rest) = false := by
    simp [startsWithSudo, hns]
  have hcond : ¬(lowerW w = netW ∧ restHeadIsUser rest = true) :=
    fun hand => hnet hand.1
  unfold command_needs_sudo parse_command
  rw [hs]
  simp only [Bool.not_true, Bool.false_eq_true, if_false, List.any_cons,
    List.any_nil, Bool.or_false, hsw]
  unfold needsSudoParts needsSudoPart
  rw [hw]
  simp only [Bool.false_eq_true, if_false, if_neg hcond, if_pos hpm]

/-- On a Unix host with sudo available, a segment whose base command is in the
fixed privileged set and that is not already sudo-prefixed is rewritten by
prepending the sudo token. -/
theorem processPart_prepend_of_mem (env : Env) (hs : env.sudoAvailable = true)
    (hw : env.isWindows = false) (w : Word) (rest : List Word)
    (hpm : lowerW w ∈ sudoCommands) (hns : lowerW w ≠ sudoW) :
    processPart env (w :: rest) = sudoW :: w :: rest := by
  have hc := command_needs_sudo_single_mem env hs hw w rest hpm hns
  unfold processPart
  rw [hw]
  simp only [Bool.false_eq_true, if_false, if_pos (And.intro hns hc)]

/-- On a Unix host, a segment already starting with the sudo token is left
untouched by the rewrite. -/
theorem processPart_sudo_headed (env : Env) (hw : env.isWindows = false)
    (w : Word) (rest : List Word) (hh : lowerW w = sudoW) :
    processPart env (w :: rest) = w :: rest := by
  have hno : ¬(lowerW w ≠ sudoW ∧ command_needs_sudo env (Cmd.list (w :: rest)) = true) :=
    fun hand => hand.1 hh
  unfold processPart
  rw [hw]
  simp only [Bool.false_eq_true, if_false, if_neg hno]

/-- When no part is empty, the part loop of `run_subprocess` is a plain map. -/
theorem processParts_map (env : Env) (parts : List (List Word))
    (h : ∀ p ∈ parts, p ≠ []) :
    processParts env parts = parts.map (processPart env) := by
  induction parts with
  | nil => rfl
  | cons p ps ih =>
    unfold processParts
    rw [if_neg (h p (by simp))]
    rw [ih (fun q hq => h q (by simp [hq]))]
    rfl

/-- C1 — corrected. As stated the claim is false: `run_subprocess` never
consults the self-install guard, so `"apt-get install -y sudo"` — for which
`is_installing_sudo` is true — is not returned unchanged; with the elevation
tool available the rewrite prepends `sudo` to it like to any other
privileged segment. -/
theorem C1_counterexample_self_install_rewritten :
    is_installing_sudo (.str "apt-get install -y sudo".data) = true ∧
    finalCmdStr env0 "apt-get install -y sudo".data ≠
      some "apt-get install -y sudo".data ∧
    finalCmdStr env0 "apt-get install -y sudo".data =
      some "sudo apt-get install -y sudo".data := by decide

/-- C1 — amended claim: the execution-path rewrite ignores the self-install
predicate. On a Unix host with the elevation tool available, a segment
matching the self-install predicate whose base command is in the privileged
set and that is not already sudo-prefixed has `sudo` prepended exactly like
any other segment (the guard is honored only by `strip_sudo`, which
`run_subprocess` never calls). -/
theorem C1_self_install_not_exempt (env : Env) (hs : env.sudoAvailable = true)
    (hw : env.isWindows = false) (w : Word) (rest : List Word)
    (hinst : isSingleInstallingSudo (w :: rest) = true)
    (hpm : lowerW w ∈ sudoCommands) (hns : lowerW w ≠ sudoW) :
    processPart env (w :: rest) = sudoW :: w :: rest :=
  processPart_prepend_of_mem env hs hw w rest hpm hns

/-- Witness for C1 at the spec's own example segment. -/
theorem C1_self_install_not_exempt_witness :
    processPart env0 ["apt-get".data, "install".data, "-y".data, "sudo".data] =
      sudoW :: ["apt-get".data, "install".data, "-y".data, "sudo".data] :=
  C1_self_install_not_exempt env0 rfl rfl "apt-get".data
    ["install".data, "-y".data, "sudo".data] (by decide) (by decide) (by decide)

/-- C2 — confirmed. On Unix with the elevation tool available: a segment with
a privileged base command and no sudo token gets `sudo` prepended as its new
first word; an already-prefixed segment is left as-is; the rewrite is a
per-segment map so the chain operators keep their order and positions; and
the spec's scenario `"apt update && apt install vim"` rewrites to
`"sudo apt update && sudo apt install vim"`. -/
theorem C2_unix_chain_rewrite :
    (∀ (env : Env), env.sudoAvailable = true → env.isWindows = false →
      ∀ (w : Word) (rest : List Word), lowerW w ∈ sudoCommands → lowerW w ≠ sudoW →
        processPart env (w :: rest) = sudoW :: w :: rest) ∧
    (∀ (env : Env), env.isWindows = false →
      ∀ (w : Word) (rest : List Word), lowerW w = sudoW →
        processPart env (w :: rest) = w :: rest) ∧
    (∀ (env : Env) (parts : List (List Word)), (∀ p ∈ parts, p ≠ []) →
      ∀ seps : List Word,
        reconstruct (processParts env parts) seps =
          reconstruct (parts.map (processPart env)) seps) ∧
    finalCmdStr env0 "apt update && apt install vim".data =
      some "sudo apt update && sudo apt install vim".data := by
  refine ⟨fun env hs hw w rest hpm hns => processPart_prepend_of_mem env hs hw w rest hpm hns,
    fun env hw w rest hh => processPart_sudo_headed env hw w rest hh,
    fun env parts h seps => by rw [processParts_map env parts h],
    by decide⟩

/-- Witness for C2: the first conjunct applied to the segment `apt update`
on the concrete Unix host. -/
theorem C2_unix_chain_rewrite_witness :
    processPart env0 ["apt".data, "update".data] =
      sudoW :: ["apt".data, "update".data] :=
  C2_unix_chain_rewrite.1 env0 rfl rfl "apt".data ["update".data]
    (by decide) (by decide)

/-! ## Exit code zero always accepted (claim C10) -/

/-- C10 — confirmed. Exit code 0 is always in the effective accepted list:
with no author list it is `[0]`, with a non-empty author list it is the
author's list with 0 appended, and the failure test never rejects a zero
exit. -/
theorem C10_zero_exit_accepted :
    (∀ codes : Option (List Int), (0 : Int) ∈ effectiveValidExitCodes codes) ∧
    (∀ codes : Option (List Int), exitRejected 0 codes = false) ∧
    (∀ l : List Int, l ≠ [] → effectiveValidExitCodes (some l) = l ++ [0]) := by
  have hmem : ∀ codes : Option (List Int), (0 : Int) ∈ effectiveValidExitCodes codes := by
    intro codes
    cases codes with
    | none => simp [effectiveValidExitCodes]
    | some l =>
      by_cases hl : l = []
      · simp [effectiveValidExitCodes, hl]
      · simp [effectiveValidExitCodes, hl]
  refine ⟨hmem, fun codes => ?_, fun l hl => by simp [effectiveValidExitCodes, hl]⟩
  simp only [exitRejected, Bool.not_eq_false']
  exact List.elem_eq_true_of_mem (hmem codes)

/-- Witness for C10 at the author list `[3]` (which omits 0). -/
theorem C10_zero_exit_accepted_witness :
    effectiveValidExitCodes (some [3]) = [3] ++ [0] :=
  C10_zero_exit_accepted.2.2 [3] (by decide)

/-! ## Execution phase: stdio wiring and temp-file cleanup (claims C5, C6)

The execution phase of `run_subprocess` after the command rewrite: the
`io_kwargs` assembly, the `subprocess.run` invocation, and the
`try`/`except`/`finally` around the script-materialization path. The one
blocking step (the spawned process) is an oracle parameter. -/

/-- A value stored under an stdio keyword: Python `None` or `subprocess.PIPE`. -/
inductive IoVal where
  | null
  | pipe
deriving DecidableEq, Repr

/-- An stdin payload: a Python string or bytes. -/
inductive Payload where
  | str (s : List Char)
  | bytes (b : List Nat)
deriving DecidableEq, Repr

/-- Python truthiness of the `input` argument. -/
def Payload.truthy : Payload → Bool
  | .str s => s ≠ []
  | .bytes b => b ≠ []

/-- The trailing-newline rule: a textual payload that does not already end in
a newline gets one appended; a bytes payload passes through. -/
def payloadWithNewline : Payload → Payload
  | .str s => if s.getLast? = some '\n' then .str s else .str (s ++ ['\n'])
  | .bytes b => .bytes b

/-- The keyword dictionary handed to `subprocess.run`; `none` means the key is
absent from the dictionary (distinct from present-with-`None`). -/
structure IoKwargs where
  stdout : Option IoVal
  stderr : Option IoVal
  stdin : Option IoVal
  input : Option Payload
deriving DecidableEq, Repr

/-- The `io_kwargs` assembly: interactive mode inherits stdout/stderr and
opens a stdin pipe; captured mode pipes stdout/stderr and leaves stdin
`None`. A truthy payload is stored under `"input"` (with the newline rule
for strings), `"stdin"` is set to PIPE and then deleted again unless the
test-only `expected_kwargs` dictionary mentions it. -/
def assembleIoKwargs (interactive : Bool) (inputP : Option Payload)
    (expectedHasStdin : Bool) : IoKwargs :=
  let base : IoKwargs :=
    if interactive then ⟨some .null, some .null, some .pipe, none⟩
    else ⟨some .pipe, some .pipe, some .null, none⟩
  match inputP with
  | some p =>
    if p.truthy then
      let withInput : IoKwargs := { base with input := some (payloadWithNewline p) }
      if expectedHasStdin then { withInput with stdin := some .pipe }
      else { withInput with stdin := none }
    else base
  | none => base

/-- Errors the execution phase can raise. -/
inductive ExecErr where
  | typeErrorDuplicateInput
  | calledProcessError (code : Int)
  | spawnFailure
  | tempCreateFailure
deriving DecidableEq, Repr

/-- The arguments `subprocess.run` receives when the call is well-formed. -/
structure SpawnArgs where
  useShell : Bool
  check : Bool
  kw : IoKwargs
deriving DecidableEq, Repr

/-- The final `subprocess.run` invocation: the interactive branch passes only
`**kwargs`; the captured branch passes `input=input` explicitly as well,
which is a Python `TypeError` (multiple values for keyword `input`) whenever
`"input"` is already a key of kwargs. -/
def buildRunCall (interactive : Bool) (inputP : Option Payload)
    (useShell check : Bool) (kw : IoKwargs) : Except ExecErr SpawnArgs :=
  if interactive then .ok ⟨useShell, check, kw⟩
  else if kw.input.isSome then .error .typeErrorDuplicateInput
  else .ok ⟨useShell, check, { kw with input := inputP }⟩

/-- Outcome of the spawned process, supplied as an oracle. -/
inductive ProcOutcome where
  | spawnFail
  | exited (code : Int)
deriving DecidableEq, Repr

/-- Filesystem trace of the script-materialization path. -/
structure TempTrace where
  created : Bool
  deleted : Bool
deriving DecidableEq, Repr

/-- The `try` body: with a `shell_type` the script is written to a fresh
temporary file (setting `script_path` and forcing `shell = True`), then
`subprocess.run` runs; `check=raise_on_error` raises `CalledProcessError` on
a non-zero exit. Returns the outcome alongside whether `script_path` was
assigned. -/
def tryBody (shellTypeSet interactive raiseOnError : Bool)
    (inputP : Option Payload) (useShell : Bool) (kw : IoKwargs)
    (tempCreateOk : Bool) (proc : ProcOutcome) : Except ExecErr Int × Bool :=
  if shellTypeSet ∧ ¬tempCreateOk then (.error .tempCreateFailure, false)
  else
    match buildRunCall interactive inputP (useShell || shellTypeSet) raiseOnError kw with
    | .error e => (.error e, shellTypeSet)
    | .ok _ =>
      match proc with
      | .spawnFail => (.error .spawnFailure, shellTypeSet)
      | .exited c =>
        if raiseOnError ∧ c ≠ 0 then (.error (.calledProcessError c), shellTypeSet)
        else (.ok c, shellTypeSet)

/-- The execution phase with its `finally` clause: the temporary script is
unlinked exactly when `shell_type` is set and `script_path` is in `locals()`,
on normal return and on every raised exception alike. -/
def runExecPhase (shellTypeSet interactive raiseOnError : Bool)
    (inputP : Option Payload) (useShell expectedHasStdin : Bool)
    (tempCreateOk : Bool) (proc : ProcOutcome) : Except ExecErr Int × TempTrace :=
  let kw := assembleIoKwargs interactive inputP expectedHasStdin
  let r := tryBody shellTypeSet interactive raiseOnError inputP useShell kw tempCreateOk proc
  (r.1, ⟨shellTypeSet && tempCreateOk, shellTypeSet && r.2⟩)

theorem tryBody_scriptPath (interactive raiseOnError : Bool) (inputP : Option Payload)
    (useShell : Bool) (kw : IoKwargs) (proc : ProcOutcome) :
    (tryBody true interactive raiseOnError inputP useShell kw true proc).2 = true := by
  unfold tryBody
  rw [if_neg (by simp)]
  cases hE : buildRunCall interactive inputP (useShell || true) raiseOnError kw with
  | error e => simp [hE]
  | ok a =>
    cases proc with
    | spawnFail => simp [hE]
    | exited c =>
      simp only [hE]
      split <;> rfl

/-- C5 — confirmed. Whenever the script interpreter is set and the temporary
script file was created, the `finally` clause removes it on every exit path:
normal zero exit, non-zero exit (with or without `fail_on_error`
escalation), and spawn failure alike. -/
theorem C5_temp_file_cleanup (interactive raiseOnError : Bool)
    (inputP : Option Payload) (useShell expectedHasStdin : Bool)
    (proc : ProcOutcome)
    (hcreated : (runExecPhase true interactive raiseOnError inputP useShell
        expectedHasStdin true proc).2.created = true) :
    (runExecPhase true interactive raiseOnError inputP useShell
        expectedHasStdin true proc).2.deleted = true := by
  have h := tryBody_scriptPath interactive raiseOnError inputP useShell
      (assembleIoKwargs interactive inputP expectedHasStdin) proc
  unfold runExecPhase
  simp [h]

/-- Witness for C5: a failing spawn of a materialized script still deletes the
temporary file. -/
theorem C5_temp_file_cleanup_witness :
    (runExecPhase true false true none false false true .spawnFail).2.deleted = true :=
  C5_temp_file_cleanup false true none false false .spawnFail (by decide)

/-- C6 — the code contradicts the claimed behavior. With a truthy textual
payload in captured mode, the kwargs assembly does capture stdout/stderr and
stores the newline-adjusted payload under `"input"`, but the final call then
passes `input=input` a second time, so `subprocess.run` raises `TypeError`
(multiple values for keyword `input`) before any process is spawned —
regardless of the process outcome oracle, the temp path, or the flags. -/
theorem C6_captured_stdin_payload_type_error :
    (assembleIoKwargs false (some (.str "y".data)) false =
      ⟨some .pipe, some .pipe, none, some (.str "y\n".data)⟩) ∧
    (assembleIoKwargs false (some (.str "ok\n".data)) false =
      ⟨some .pipe, some .pipe, none, some (.str "ok\n".data)⟩) ∧
    (∀ (s : List Char), s ≠ [] →
      ∀ (shellTypeSet raiseOnError useShell : Bool) (proc : ProcOutcome),
        (runExecPhase shellTypeSet false raiseOnError (some (.str s)) useShell
            false true proc).1 = .error .typeErrorDuplicateInput) := by
  refine ⟨by decide, by decide, fun s hs shellTypeSet raiseOnError useShell proc => ?_⟩
  have htr : Payload.truthy (.str s) = true := by
    simp [Payload.truthy, hs]
  unfold runExecPhase tryBody buildRunCall
  simp [assembleIoKwargs, htr]

/-- Witness for C6 at the payload `"y"`. -/
theorem C6_captured_stdin_payload_type_error_witness :
    (runExecPhase false false false (some (.str "y".data)) false
        false true (.exited 0)).1 = .error .typeErrorDuplicateInput :=
  C6_captured_stdin_payload_type_error.2.2 "y".data (by decide) false false false (.exited 0)

/-! ## Round-trip infrastructure (claims C7, C9)

The scanner of `parse_command` is simulated at word level: the quote state
evolves per character through `qStepChar`; a word is *absorbable* from a
state when no character of it triggers the unquoted-whitespace flush. -/

/-- The effect of one non-flushing scanner character on the quote state. -/
def qStepChar (q : Option Char) (c : Char) : Option Char :=
  if isQuoteChar c && (q == none || q == some c) then
    (match q with | none => some c | some _ => none)
  else q

/-- Quote state after a word. -/
def qTrans (q : Option Char) (w : Word) : Option Char := w.foldl qStepChar q

/-- No character of `w`, scanned from quote state `q`, is an unquoted
whitespace (so the scanner appends every character of `w` to the current
word). -/
def absorbable : Option Char → Word → Bool
  | _, [] => true
  | q, c :: cs => !(pyIsSpace c && q == none) && absorbable (qStepChar q c) cs

/-- `w` contains no whitespace at all. -/
def spaceFree (w : Word) : Bool := w.all (fun c => !pyIsSpace c)

theorem qTrans_append (q : Option Char) (u v : Word) :
    qTrans q (u ++ v) = qTrans (qTrans q u) v :=
  List.foldl_append ..

theorem absorbable_append (u : Word) : ∀ (q : Option Char) (v : Word),
    absorbable q (u ++ v) = (absorbable q u && absorbable (qTrans q u) v) := by
  induction u with
  | nil => intro q v; simp [absorbable, qTrans]
  | cons c cs ih =>
    intro q v
    simp only [List.cons_append, absorbable, List.append_eq, ih, qTrans,
      List.foldl_cons, Bool.and_assoc]

theorem absorbable_of_spaceFree (w : Word) : ∀ (q : Option Char),
    spaceFree w = true → absorbable q w = true := by
  induction w with
  | nil => intro q _; rfl
  | cons c cs ih =>
    intro q h
    simp only [spaceFree, List.all_cons, Bool.and_eq_true] at h
    simp only [absorbable, Bool.and_eq_true]
    exact ⟨by simp [h.1], ih (qStepChar q c) (by simpa [spaceFree] using h.2)⟩

theorem qTrans_spaceChar (q : Option Char) (h : q ≠ none) :
    qStepChar q ' ' = q := by
  unfold qStepChar
  rw [if_neg]
  simp [isQuoteChar, squote, dquote]

theorem scanStep_absorb (st : ScanSt) (c : Char)
    (h : (pyIsSpace c && st.q == none) = false) :
    scanStep st c = { st with curW := st.curW ++ [c], q := qStepChar st.q c } := by
  unfold scanStep qStepChar
  by_cases hq : (isQuoteChar c && (st.q == none || st.q == some c)) = true
  · rw [if_pos hq, if_pos hq]
  · rw [if_neg (by simp [hq]), if_neg (by simp [h]), if_neg (by simp [hq])]

/-- Absorbing a word: the scanner appends it whole to `current_word`. -/
def absorbW (st : ScanSt) (w : Word) : ScanSt :=
  { st with curW := st.curW ++ w, q := qTrans st.q w }

theorem foldl_scanStep_absorb (w : Word) : ∀ (st : ScanSt),
    absorbable st.q w = true → w.foldl scanStep st = absorbW st w := by
  induction w with
  | nil =>
    intro st _
    simp only [List.foldl_nil, absorbW, qTrans, List.foldl_nil, List.append_nil]
  | cons c cs ih =>
    intro st h
    simp only [absorbable, Bool.and_eq_true, Bool.not_eq_true'] at h
    rw [List.foldl_cons, scanStep_absorb st c h.1]
    rw [ih _ (by simpa using h.2)]
    simp [absorbW, qTrans, List.foldl_cons, List.append_assoc]

/-- The scanner step at an inter-word space: flush when outside quotes,
otherwise the space is literal. -/
def spaceStep (st : ScanSt) : ScanSt :=
  if st.q = none then flushWord st else { st with curW := st.curW ++ [' '] }

theorem scanStep_space (st : ScanSt) : scanStep st ' ' = spaceStep st := by
  have hnq : ¬((isQuoteChar ' ' && (st.q == none || st.q == some ' ')) = true) := by
    simp [isQuoteChar, squote, dquote]
  unfold scanStep spaceStep
  rw [if_neg hnq]
  by_cases hq : st.q = none
  · rw [if_pos (by simp [hq, pyIsSpace]), if_pos hq]
  · have hns : ¬((pyIsSpace ' ' && st.q == none) = true) := by
      simp [pyIsSpace, hq]
    rw [if_neg hns, if_neg hq]

theorem joinWords_cons_cons (w x : Word) (ws : List Word) :
    joinWords (w :: x :: ws) = w ++ ' ' :: joinWords (x :: ws) := rfl

/-- A word is space-clean when splitting it on whitespace and rejoining with
single spaces reproduces it: its whitespace is exactly single interior `' '`
characters. Tokens built by the scanner from normalized text have this
shape, which makes the re-parse of a reconstructed command stable. -/
def SpClean (w : Word) : Prop := joinWords (pySplit w) = w

instance (w : Word) : Decidable (SpClean w) :=
  inferInstanceAs (Decidable (joinWords (pySplit w) = w))

theorem parse_command_str (s : List Char) :
    parse_command (.str s) =
      if '\n' ∈ s then ([[s]], []) else scanChars (normalize s) := rfl

theorem pySplitGo_space_append (u : Word) : ∀ (acc : Word) (v : List Char),
    pySplitGo acc (u ++ ' ' :: v) = pySplitGo acc u ++ pySplit v := by
  induction u with
  | nil =>
    intro acc v
    by_cases ha : acc = []
    · simp [pySplitGo, pySplit, ha, pyIsSpace]
    · simp [pySplitGo, pySplit, ha, pyIsSpace]
  | cons c cs ih =>
    intro acc v
    by_cases hc : pyIsSpace c = true
    · by_cases ha : acc = []
      · simp [pySplitGo, hc, ha, ih]
      · simp [pySplitGo, hc, ha, ih]
    · simp [pySplitGo, hc, ih]

theorem pySplitGo_spaceFree (w : Word) : ∀ (acc : Word), spaceFree w = true →
    pySplitGo acc w = if (acc ++ w) = [] then [] else [acc ++ w] := by
  induction w with
  | nil => intro acc _; simp [pySplitGo]
  | cons c cs ih =>
    intro acc h
    simp only [spaceFree, List.all_cons, Bool.and_eq_true] at h
    have hc : pyIsSpace c = false := by simpa using h.1
    have hcs : spaceFree cs = true := h.2
    rw [show pySplitGo acc (c :: cs) = pySplitGo (acc ++ [c]) cs by simp [pySplitGo, hc]]
    rw [ih (acc ++ [c]) hcs]
    simp

theorem pySplit_spaceFree (w : Word) (hw : spaceFree w = true) (hne : w ≠ []) :
    pySplit w = [w] := by
  have := pySplitGo_spaceFree w [] hw
  simpa [pySplit, hne] using this

theorem SpClean_of_spaceFree (w : Word) (hw : spaceFree w = true) (hne : w ≠ []) :
    SpClean w := by
  simp [SpClean, pySplit_spaceFree w hw hne, joinWords]

theorem joinWords_append (B : List Word) (hB : B ≠ []) :
    ∀ (A : List Word), A ≠ [] → joinWords (A ++ B) = joinWords A ++ ' ' :: joinWords B := by
  intro A
  induction A with
  | nil => intro h; cases h rfl
  | cons a A' ih =>
    intro _
    cases A' with
    | nil =>
      cases B with
      | nil => cases hB rfl
      | cons b B' => simp [joinWords_cons_cons, joinWords]
    | cons a2 A'' =>
      have h2 : (a2 :: A'') ++ B = a2 :: (A'' ++ B) := rfl
      have step : (a :: a2 :: A'') ++ B = a :: ((a2 :: A'') ++ B) := rfl
      rw [step, h2, joinWords_cons_cons, ← h2, ih (by simp), joinWords_cons_cons]
      simp [List.append_assoc]

theorem SpClean_ne_nil_split (w : Word) (h : SpClean w) (hne : w ≠ []) :
    pySplit w ≠ [] := by
  intro h0
  rw [SpClean, h0] at h
  exact hne h.symm

theorem SpClean_append_space (u w : Word) (hu : SpClean u) (hune : u ≠ [])
    (hw : spaceFree w = true) (hwne : w ≠ []) : SpClean (u ++ ' ' :: w) := by
  have hsplit : pySplit (u ++ ' ' :: w) = pySplit u ++ [w] := by
    rw [pySplit, pySplitGo_space_append u [] w, pySplit_spaceFree w hw hwne]
    rfl
  unfold SpClean
  rw [hsplit, joinWords_append [w] (by simp) (pySplit u) (SpClean_ne_nil_split u hu hune)]
  rw [show joinWords (pySplit u) = u from hu]
  rfl

/-- Rejoining space-clean tokens is a fixed point of the normalization, and
the split of the joined text is non-empty when the token list is. -/
theorem normalize_join_tokens (T : List Word) (h : ∀ t ∈ T, t ≠ [] ∧ SpClean t) :
    normalize (joinWords T) = joinWords T ∧ (T ≠ [] → pySplit (joinWords T) ≠ []) := by
  induction T with
  | nil => exact ⟨rfl, fun h' => absurd rfl h'⟩
  | cons t T' ih =>
    have ht := h t (by simp)
    cases T' with
    | nil =>
      refine ⟨?_, fun _ => ?_⟩
      · show normalize (joinWords [t]) = joinWords [t]
        show joinWords (pySplit t) = t
        exact ht.2
      · show pySplit t ≠ []
        exact SpClean_ne_nil_split t ht.2 ht.1
    | cons t2 T'' =>
      obtain ⟨ih1, ih2⟩ := ih (fun u hu => h u (by simp [hu]))
      have hps : pySplit (joinWords (t2 :: T'')) ≠ [] := ih2 (by simp)
      have hsplit : pySplit (t ++ ' ' :: joinWords (t2 :: T'')) =
          pySplit t ++ pySplit (joinWords (t2 :: T'')) := by
        rw [pySplit, pySplitGo_space_append]
        rfl
      rw [joinWords_cons_cons]
      constructor
      · show joinWords (pySplit (t ++ ' ' :: joinWords (t2 :: T''))) = _
        rw [hsplit, joinWords_append _ hps _ (SpClean_ne_nil_split t ht.2 ht.1)]
        rw [show joinWords (pySplit t) = t from ht.2]
        rw [show joinWords (pySplit (joinWords (t2 :: T''))) = joinWords (t2 :: T'') from ih1]
      · intro _
        rw [hsplit]
        simp [SpClean_ne_nil_split t ht.2 ht.1]
def runWords : ScanSt → List Word → ScanSt
  | st, [] => st
  | st, [w] => absorbW st w
  | st, w :: ws => runWords (spaceStep (absorbW st w)) ws

/-- Scanning `" ".join(W)` for whitespace-free words is the word machine. -/
theorem foldl_scanStep_join (W : List Word) : ∀ (st : ScanSt),
    (∀ w ∈ W, spaceFree w = true) →
    (joinWords W).foldl scanStep st = runWords st W := by
  induction W with
  | nil => intro st _; rfl
  | cons w ws ih =>
    intro st h
    cases ws with
    | nil =>
      show w.foldl scanStep st = absorbW st w
      exact foldl_scanStep_absorb w st
        (absorbable_of_spaceFree w st.q (h w (by simp)))
    | cons x xs =>
      rw [joinWords_cons_cons, List.foldl_append, List.foldl_cons]
      rw [foldl_scanStep_absorb w st (absorbable_of_spaceFree w st.q (h w (by simp)))]
      rw [scanStep_space]
      exact ih _ (fun u hu => h u (by simp [hu]))

/-- Token-level run: the scanner flushes between consecutive tokens (the
inter-token space is unquoted there) and merely absorbs the last one. -/
def runTokens : ScanSt → List Word → ScanSt
  | st, [] => st
  | st, [t] => absorbW st t
  | st, t :: ts => runTokens (flushWord (absorbW st t)) ts

theorem runTokens_cons_ne (st : ScanSt) (t : Word) (ts : List Word) (h : ts ≠ []) :
    runTokens st (t :: ts) = runTokens (flushWord (absorbW st t)) ts := by
  cases ts with
  | nil => cases h rfl
  | cons x xs => rfl

theorem flushWord_q (st : ScanSt) : (flushWord st).q = st.q := by
  unfold flushWord
  split
  · rfl
  · split
    · split
      · rfl
      · rfl
    · rfl

/-- Scanning the space-join of tokens that are each absorbable and — except
possibly the last — quote-closed is the token machine. -/
theorem foldl_scanStep_join_tokens (T : List Word) : ∀ (st : ScanSt),
    st.q = none → (∀ w ∈ T, absorbable none w = true) →
    (∀ w ∈ T.dropLast, qTrans none w = none) →
    (joinWords T).foldl scanStep st = runTokens st T := by
  induction T with
  | nil => intro st _ _ _; rfl
  | cons t ts ih =>
    intro st hq habs hdrop
    cases ts with
    | nil =>
      show t.foldl scanStep st = absorbW st t
      exact foldl_scanStep_absorb t st (by rw [hq]; exact habs t (by simp))
    | cons x xs =>
      rw [joinWords_cons_cons, List.foldl_append, List.foldl_cons]
      rw [foldl_scanStep_absorb t st (by rw [hq]; exact habs t (by simp))]
      rw [scanStep_space]
      have hqt : (absorbW st t).q = none := by
        show qTrans st.q t = none
        rw [hq]
        exact hdrop t (by rw [List.dropLast_cons₂]; simp)
      rw [show spaceStep (absorbW st t) = flushWord (absorbW st t) from by
        unfold spaceStep; rw [if_pos hqt]]
      rw [runTokens_cons_ne st t (x :: xs) (by simp)]
      apply ih
      · rw [flushWord_q]
        exact hqt
      · exact fun w hw => habs w (by simp [hw])
      · intro w hw
        apply hdrop
        rw [List.dropLast_cons₂]
        simp [hw]

/-- Running the non-operator tokens of one segment accumulates them onto the
current part; a following token list continues from there. -/
theorem runTokens_part (ts : List Word) : ∀ (st : ScanSt), st.curW = [] →
    (∀ w ∈ ts, w ≠ [] ∧ isChainOp w = false) →
    ((∀ rest : List Word, rest ≠ [] →
        runTokens st (ts ++ rest) =
          runTokens { st with cur := st.cur ++ ts, q := ts.foldl qTrans st.q } rest) ∧
     (ts ≠ [] → finishScan (runTokens st ts) = (st.parts ++ [st.cur ++ ts], st.seps))) := by
  induction ts with
  | nil =>
    intro st hcw _
    refine ⟨fun rest hrest => ?_, fun h => absurd rfl h⟩
    simp
  | cons t ts' ih =>
    intro st hcw h
    obtain ⟨P, S, C, CW, Q⟩ := st
    simp only at hcw
    subst hcw
    have ht := h t (by simp)
    have hstep : flushWord (absorbW ⟨P, S, C, [], Q⟩ t) =
        ⟨P, S, C ++ [t], [], qTrans Q t⟩ := by
      show flushWord ⟨P, S, C, [] ++ t, qTrans Q t⟩ = _
      unfold flushWord
      rw [if_neg (by simpa using ht.1), if_neg (by simpa using ht.2)]
      simp
    obtain ⟨ih1, ih2⟩ := ih ⟨P, S, C ++ [t], [], qTrans Q t⟩ rfl
      (fun w hw => h w (by simp [hw]))
    constructor
    · intro rest hrest
      rw [List.cons_append,
        runTokens_cons_ne _ t (ts' ++ rest) (by simp [hrest]), hstep,
        ih1 rest hrest]
      simp [List.append_assoc]
    · intro _
      cases ts' with
      | nil =>
        show finishScan (absorbW ⟨P, S, C, [], Q⟩ t) = _
        show finishScan ⟨P, S, C, [] ++ t, qTrans Q t⟩ = _
        unfold finishScan
        rw [if_neg (by simpa using ht.1), if_neg (by simpa using ht.2)]
        simp
      | cons t2 ts'' =>
        rw [runTokens_cons_ne _ t (t2 :: ts'') (by simp), hstep,
          ih2 (by simp)]
        simp [List.append_assoc]

/-- Classification of a reconstructed token sequence: the parts come back as
segments and the interleaved separators come back as operators (the
separators beyond `len(parts) - 1` were dropped at reconstruction). -/
theorem runTokens_reconstruct : ∀ (pp : List (List Word)) (seps : List Word)
    (st : ScanSt), st.curW = [] → st.cur = [] →
    (∀ p ∈ pp, p ≠ []) →
    (∀ p ∈ pp, ∀ w ∈ p, w ≠ [] ∧ isChainOp w = false) →
    (∀ s ∈ seps, isChainOp s = true) →
    pp ≠ [] → pp.length ≤ seps.length + 1 →
    finishScan (runTokens st (reconstruct pp seps)) =
      (st.parts ++ pp, st.seps ++ seps.take (pp.length - 1)) := by
  intro pp
  induction pp with
  | nil => intro seps st _ _ _ _ _ hne _; cases hne rfl
  | cons p pp' ih =>
    intro seps st hcw hcur hpne hwords hseps hne hlen
    cases pp' with
    | nil =>
      show finishScan (runTokens st (p ++ reconWithSeps [] seps)) = _
      show finishScan (runTokens st (p ++ [])) = _
      rw [List.append_nil]
      rw [(runTokens_part p st hcw (hwords p (by simp))).2 (hpne p (by simp))]
      simp [hcur]
    | cons p2 pp'' =>
      cases seps with
      | nil => simp at hlen
      | cons s ss =>
        have hp2ne : p2 ≠ [] := hpne p2 (by simp)
        have hTne : reconstruct (p2 :: pp'') ss ≠ [] := by
          show p2 ++ reconWithSeps pp'' ss ≠ []
          simp [hp2ne]
        have hrecon : reconstruct (p :: p2 :: pp'') (s :: ss) =
            p ++ s :: reconstruct (p2 :: pp'') ss := rfl
        rw [hrecon]
        rw [(runTokens_part p st hcw (hwords p (by simp))).1 (s :: reconstruct (p2 :: pp'') ss) (by simp)]
        rw [runTokens_cons_ne _ s _ hTne]
        obtain ⟨P, S, C, CW, Q⟩ := st
        simp only at hcw hcur
        subst hcw
        subst hcur
        have hsop : isChainOp s = true := hseps s (by simp)
        have hflush : flushWord (absorbW ⟨P, S, [] ++ p, [], p.foldl qTrans Q⟩ s) =
            ⟨P ++ [p], S ++ [s], [], [], qTrans (p.foldl qTrans Q) s⟩ := by
          show flushWord ⟨P, S, [] ++ p, [] ++ s, qTrans (p.foldl qTrans Q) s⟩ = _
          unfold flushWord
          have hsne : s ≠ [] := by
            intro h0
            rw [h0] at hsop
            exact absurd hsop (by decide)
          rw [if_neg (by simpa using hsne), if_pos (by simpa using hsop),
            if_neg (by simpa using hpne p (by simp))]
          simp
        rw [hflush]
        rw [ih ss ⟨P ++ [p], S ++ [s], [], [], qTrans (p.foldl qTrans Q) s⟩ rfl rfl
          (fun q hq => hpne q (by simp [hq]))
          (fun q hq => hwords q (by simp [hq]))
          (fun x hx => hseps x (by simp [hx]))
          (by simp)
          (by simpa using Nat.le_of_succ_le_succ (by simpa using hlen))]
        simp [List.append_assoc, List.take_cons]

theorem chainOp_cases (w : Word) (h : isChainOp w = true) :
    w = ['&', '&'] ∨ w = ['|', '|'] ∨ w = ['|'] := by
  simpa [isChainOp, or_assoc] using h

theorem chainOp_facts (w : Word) (h : isChainOp w = true) :
    w ≠ [] ∧ absorbable none w = true ∧ SpClean w ∧ qTrans none w = none := by
  rcases chainOp_cases w h with rfl | rfl | rfl
  · exact ⟨by simp, by decide, by decide, by decide⟩
  · exact ⟨by simp, by decide, by decide, by decide⟩
  · exact ⟨by simp, by decide, by decide, by decide⟩

theorem mem_reconWithSeps (w : Word) : ∀ (pp : List (List Word)) (seps : List Word),
    w ∈ reconWithSeps pp seps → (∃ p ∈ pp, w ∈ p) ∨ w ∈ seps := by
  intro pp
  induction pp with
  | nil => intro seps h; cases h
  | cons p rest ih =>
    intro seps h
    cases seps with
    | nil =>
      rcases List.mem_append.1 h with h1 | h2
      · exact Or.inl ⟨p, by simp, h1⟩
      · rcases ih [] h2 with ⟨q, hq, hw⟩ | hs
        · exact Or.inl ⟨q, by simp [hq], hw⟩
        · cases hs
    | cons s ss =>
      rcases List.mem_cons.1 h with rfl | h'
      · exact Or.inr (by simp)
      · rcases List.mem_append.1 h' with h1 | h2
        · exact Or.inl ⟨p, by simp, h1⟩
        · rcases ih ss h2 with ⟨q, hq, hw⟩ | hs
          · exact Or.inl ⟨q, by simp [hq], hw⟩
          · exact Or.inr (by simp [hs])

theorem mem_reconstruct (w : Word) (pp : List (List Word)) (seps : List Word)
    (h : w ∈ reconstruct pp seps) : (∃ p ∈ pp, w ∈ p) ∨ w ∈ seps := by
  cases pp with
  | nil => cases h
  | cons p rest =>
    rcases List.mem_append.1 h with h1 | h2
    · exact Or.inl ⟨p, by simp, h1⟩
    · rcases mem_reconWithSeps w rest seps h2 with ⟨q, hq, hw⟩ | hs
      · exact Or.inl ⟨q, by simp [hq], hw⟩
      · exact Or.inr hs

theorem mem_joinWords (c : Char) : ∀ (T : List Word),
    c ∈ joinWords T → (∃ t ∈ T, c ∈ t) ∨ c = ' ' := by
  intro T
  induction T with
  | nil => intro h; cases h
  | cons t T' ih =>
    intro h
    cases T' with
    | nil => exact Or.inl ⟨t, by simp, h⟩
    | cons t2 T'' =>
      rw [joinWords_cons_cons] at h
      rcases List.mem_append.1 h with h1 | h2
      · exact Or.inl ⟨t, by simp, h1⟩
      · rcases List.mem_cons.1 h2 with rfl | h3
        · exact Or.inr rfl
        · rcases ih h3 with ⟨u, hu, hc⟩ | hs
          · exact Or.inl ⟨u, by simp [hu], hc⟩
          · exact Or.inr hs

theorem pySplitGo_frags_spaceFree : ∀ (cs : List Char) (acc : Word),
    spaceFree acc = true → ∀ f ∈ pySplitGo acc cs, spaceFree f = true := by
  intro cs
  induction cs with
  | nil =>
    intro acc hacc f hf
    by_cases ha : acc = []
    · simp [pySplitGo, ha] at hf
    · simp [pySplitGo, ha] at hf
      simpa [hf] using hacc
  | cons c cs' ih =>
    intro acc hacc f hf
    by_cases hc : pyIsSpace c = true
    · by_cases ha : acc = []
      · rw [show pySplitGo acc (c :: cs') = pySplitGo [] cs' by simp [pySplitGo, hc, ha]] at hf
        exact ih [] rfl f hf
      · rw [show pySplitGo acc (c :: cs') = acc :: pySplitGo [] cs' by simp [pySplitGo, hc, ha]] at hf
        rcases List.mem_cons.1 hf with rfl | hf'
        · exact hacc
        · exact ih [] rfl f hf'
    · rw [show pySplitGo acc (c :: cs') = pySplitGo (acc ++ [c]) cs' by simp [pySplitGo, hc]] at hf
      refine ih (acc ++ [c]) ?_ f hf
      simp only [spaceFree, List.all_append, List.all_cons, List.all_nil, Bool.and_eq_true]
      exact ⟨hacc, by simp [hc], trivial⟩

/-- A space-clean word contains no whitespace other than `' '`; in particular
no newline. -/
theorem SpClean_no_newline (w : Word) (h : SpClean w) : '\n' ∉ w := by
  intro hmem
  rw [SpClean] at h
  rw [← h] at hmem
  rcases mem_joinWords '\n' (pySplit w) hmem with ⟨f, hf, hc⟩ | habs
  · have := pySplitGo_frags_spaceFree w [] rfl f hf
    simp only [spaceFree, List.all_eq_true] at this
    have := this '\n' hc
    simp [pyIsSpace] at this
  · cases habs

/-- Facts about every word the scanner has already flushed into a segment. -/
def WordFacts (w : Word) : Prop :=
  w ≠ [] ∧ isChainOp w = false ∧ absorbable none w = true ∧ SpClean w ∧
    qTrans none w = none

/-- Facts about the flushed content of a scanner state. -/
def ScanBase (st : ScanSt) : Prop :=
  (∀ p ∈ st.parts, p ≠ []) ∧
  (∀ p ∈ st.parts, ∀ w ∈ p, WordFacts w) ∧
  (∀ w ∈ st.cur, WordFacts w) ∧
  (∀ s ∈ st.seps, isChainOp s = true)

/-- Shape of the pending word at a word boundary of the scan: empty outside
quotes, or a space-clean word plus the just-read literal quoted space. -/
def PendArg (st : ScanSt) : Prop :=
  (st.curW = [] ∧ st.q = none) ∨
  (∃ u, st.curW = u ++ [' '] ∧ u ≠ [] ∧ SpClean u ∧
    absorbable none st.curW = true ∧ qTrans none st.curW = st.q ∧ st.q ≠ none)

/-- Shape of the pending word after absorbing a word (the run's last state). -/
def PendEnd (st : ScanSt) : Prop :=
  st.curW ≠ [] ∧ SpClean st.curW ∧ absorbable none st.curW = true ∧
    qTrans none st.curW = st.q

theorem absorbW_facts (st : ScanSt) (w : Word) (hb : ScanBase st) (hp : PendArg st)
    (hsf : spaceFree w = true) (hne : w ≠ []) :
    ScanBase (absorbW st w) ∧ PendEnd (absorbW st w) := by
  have hbase : ScanBase (absorbW st w) := hb
  refine ⟨hbase, ?_⟩
  rcases hp with ⟨hcw, hq⟩ | ⟨u, hcw, hune, hucl, habs, hqt, hqne⟩
  · refine ⟨by simp [absorbW, hcw, hne], ?_, ?_, ?_⟩
    · show SpClean (st.curW ++ w)
      rw [hcw]
      exact SpClean_of_spaceFree w hsf hne
    · show absorbable none (st.curW ++ w) = true
      rw [hcw]
      exact absorbable_of_spaceFree w none hsf
    · show qTrans none (st.curW ++ w) = qTrans st.q w
      rw [hcw, hq]
      rfl
  · refine ⟨by simp [absorbW, hcw, hne], ?_, ?_, ?_⟩
    · show SpClean (st.curW ++ w)
      rw [hcw, List.append_assoc]
      exact SpClean_append_space u w hucl hune hsf hne
    · show absorbable none (st.curW ++ w) = true
      rw [absorbable_append, habs, hqt]
      simp [absorbable_of_spaceFree w st.q hsf]
    · show qTrans none (st.curW ++ w) = qTrans st.q w
      rw [qTrans_append, hqt]

theorem spaceStep_facts (st : ScanSt) (hb : ScanBase st) (hp : PendEnd st) :
    ScanBase (spaceStep st) ∧ PendArg (spaceStep st) := by
  obtain ⟨hne, hcl, habs, hqt⟩ := hp
  obtain ⟨hb1, hb2, hb3, hb4⟩ := hb
  unfold spaceStep
  by_cases hq : st.q = none
  · rw [if_pos hq]
    unfold flushWord
    rw [if_neg hne]
    by_cases hop : isChainOp st.curW = true
    · rw [if_pos hop]
      by_cases hcur : st.cur = []
      · rw [if_pos hcur]
        exact ⟨⟨hb1, hb2, by simp, hb4⟩, Or.inl ⟨rfl, hq⟩⟩
      · rw [if_neg hcur]
        refine ⟨⟨?_, ?_, by simp, ?_⟩, Or.inl ⟨rfl, hq⟩⟩
        · intro p hp
          rcases List.mem_append.1 hp with h1 | h2
          · exact hb1 p h1
          · rw [List.mem_singleton.1 h2]
            exact hcur
        · intro p hp w hw
          rcases List.mem_append.1 hp with h1 | h2
          · exact hb2 p h1 w hw
          · rw [List.mem_singleton.1 h2] at hw
            exact hb3 w hw
        · intro x hx
          rcases List.mem_append.1 hx with h1 | h2
          · exact hb4 x h1
          · rw [List.mem_singleton.1 h2]
            exact hop
    · rw [if_neg hop]
      refine ⟨⟨hb1, hb2, ?_, hb4⟩, Or.inl ⟨rfl, hq⟩⟩
      intro w hw
      rcases List.mem_append.1 hw with h1 | h2
      · exact hb3 w h1
      · rw [List.mem_singleton.1 h2]
        refine ⟨hne, by simpa using hop, habs, hcl, ?_⟩
        rw [hqt, hq]
  · rw [if_neg hq]
    refine ⟨⟨hb1, hb2, hb3, hb4⟩, Or.inr ⟨st.curW, rfl, hne, hcl, ?_, ?_, hq⟩⟩
    · show absorbable none (st.curW ++ [' ']) = true
      rw [absorbable_append, habs, hqt]
      simp [absorbable, qStepChar, pyIsSpace]
      intro h0
      exact absurd h0 hq
    · show qTrans none (st.curW ++ [' ']) = qTrans st.q [' ']
      rw [qTrans_append, hqt]

/-- The facts carried to the end of the word-machine run. -/
theorem runWords_facts : ∀ (W : List Word) (st : ScanSt),
    (∀ w ∈ W, spaceFree w = true ∧ w ≠ []) → ScanBase st → PendArg st →
    ScanBase (runWords st W) ∧ (W ≠ [] → PendEnd (runWords st W)) ∧
      (W = [] → runWords st W = st) := by
  intro W
  induction W with
  | nil => exact fun st _ hb hp => ⟨hb, fun h => absurd rfl h, fun _ => rfl⟩
  | cons w ws ih =>
    intro st h hb hp
    have hw := h w (by simp)
    cases ws with
    | nil =>
      have := absorbW_facts st w hb hp hw.1 hw.2
      exact ⟨this.1, fun _ => this.2, fun h0 => by cases h0⟩
    | cons x xs =>
      have hmid := absorbW_facts st w hb hp hw.1 hw.2
      have hstep := spaceStep_facts (absorbW st w) hmid.1 hmid.2
      have := ih (spaceStep (absorbW st w)) (fun u hu => h u (by simp [hu]))
        hstep.1 hstep.2
      exact ⟨this.1, fun _ => this.2.1 (by simp), fun h0 => by cases h0⟩

theorem pySplitGo_frags_ne : ∀ (cs : List Char) (acc : Word),
    ∀ f ∈ pySplitGo acc cs, f ≠ [] := by
  intro cs
  induction cs with
  | nil =>
    intro acc f hf
    by_cases ha : acc = []
    · simp [pySplitGo, ha] at hf
    · simp [pySplitGo, ha] at hf
      simp [hf, ha]
  | cons c cs' ih =>
    intro acc f hf
    by_cases hc : pyIsSpace c = true
    · by_cases ha : acc = []
      · rw [show pySplitGo acc (c :: cs') = pySplitGo [] cs' by simp [pySplitGo, hc, ha]] at hf
        exact ih [] f hf
      · rw [show pySplitGo acc (c :: cs') = acc :: pySplitGo [] cs' by simp [pySplitGo, hc, ha]] at hf
        rcases List.mem_cons.1 hf with rfl | hf'
        · exact ha
        · exact ih [] f hf'
    · rw [show pySplitGo acc (c :: cs') = pySplitGo (acc ++ [c]) cs' by simp [pySplitGo, hc]] at hf
      exact ih (acc ++ [c]) f hf

/-- Facts about the output of parsing single-line text: either the degenerate
empty parse, or every segment is non-empty with non-operator, absorbable,
space-clean words; separators are operators; and every word except possibly
the final word of the final segment is quote-closed. -/
theorem parse_str_facts (s : List Char) (hnl : '\n' ∉ s) :
    ((parse_command (.str s)).1 = [[]] ∧ (parse_command (.str s)).2 = []) ∨
    ((∀ p ∈ (parse_command (.str s)).1, p ≠ []) ∧
     (∀ p ∈ (parse_command (.str s)).1, ∀ w ∈ p,
        w ≠ [] ∧ isChainOp w = false ∧ absorbable none w = true ∧ SpClean w) ∧
     (∀ t ∈ (parse_command (.str s)).2, isChainOp t = true) ∧
     (∀ p ∈ (parse_command (.str s)).1.dropLast, ∀ w ∈ p, qTrans none w = none) ∧
     (∀ p, (parse_command (.str s)).1.getLast? = some p →
        ∀ w ∈ p.dropLast, qTrans none w = none)) := by
  have hWf : ∀ w ∈ pySplit s, spaceFree w = true ∧ w ≠ [] :=
    fun w hw => ⟨pySplitGo_frags_spaceFree s [] rfl w hw, pySplitGo_frags_ne s [] w hw⟩
  have hrun : (normalize s).foldl scanStep initSt = runWords initSt (pySplit s) :=
    foldl_scanStep_join (pySplit s) initSt (fun w hw => (hWf w hw).1)
  have hlens := scan_foldl_lens (normalize s) initSt rfl
  rw [hrun] at hlens
  have hfacts := runWords_facts (pySplit s) initSt hWf
    ⟨by simp [initSt], by simp [initSt], by simp [initSt], by simp [initSt]⟩
    (Or.inl ⟨rfl, rfl⟩)
  have hsc : scanChars (normalize s) =
      (orEmptySegment (finishScan (runWords initSt (pySplit s))).1,
       (finishScan (runWords initSt (pySplit s))).2) := by
    unfold scanChars
    rw [hrun]
  rw [parse_command_str, if_neg hnl, hsc]
  by_cases hW : pySplit s = []
  · left
    rw [hW]
    constructor <;> rfl
  · obtain ⟨⟨hb1, hb2, hb3, hb4⟩, hpend, _⟩ := hfacts
    obtain ⟨hne, hcl, habs, hqt⟩ := hpend hW
    by_cases hop : isChainOp (runWords initSt (pySplit s)).curW = true
    · by_cases hcur : (runWords initSt (pySplit s)).cur = []
      · rw [show finishScan (runWords initSt (pySplit s)) =
            ((runWords initSt (pySplit s)).parts, (runWords initSt (pySplit s)).seps) from by
          unfold finishScan; rw [if_neg hne, if_pos hop, if_pos hcur]]
        by_cases hparts : (runWords initSt (pySplit s)).parts = []
        · left
          have : (runWords initSt (pySplit s)).seps = [] := by
            have := hlens
            rw [hparts] at this
            simpa using (List.length_eq_zero.1 this.symm)
          simp [orEmptySegment, hparts, this]
        · right
          rw [show orEmptySegment (runWords initSt (pySplit s)).parts =
              (runWords initSt (pySplit s)).parts from by
            unfold orEmptySegment; rw [if_neg hparts]]
          refine ⟨hb1, fun p hp w hw => ?_, hb4, fun p hp w hw => ?_, fun p hp w hw => ?_⟩
          · obtain ⟨f1, f2, f3, f4, _⟩ := hb2 p hp w hw
            exact ⟨f1, f2, f3, f4⟩
          · exact (hb2 p (List.dropLast_subset _ hp) w hw).2.2.2.2
          · exact (hb2 p (List.mem_of_mem_getLast? hp)
              w (List.dropLast_subset _ hw)).2.2.2.2
      · rw [show finishScan (runWords initSt (pySplit s)) =
            ((runWords initSt (pySplit s)).parts ++ [(runWords initSt (pySplit s)).cur],
             (runWords initSt (pySplit s)).seps ++ [(runWords initSt (pySplit s)).curW]) from by
          unfold finishScan; rw [if_neg hne, if_pos hop, if_neg hcur]]
        right
        rw [show orEmptySegment ((runWords initSt (pySplit s)).parts ++
            [(runWords initSt (pySplit s)).cur]) =
            (runWords initSt (pySplit s)).parts ++ [(runWords initSt (pySplit s)).cur] from by
          unfold orEmptySegment; rw [if_neg (by simp)]]
        have hpw : ∀ p, p ∈ (runWords initSt (pySplit s)).parts ++
            [(runWords initSt (pySplit s)).cur] → ∀ w ∈ p, WordFacts w := by
          intro p hp w hw
          rcases List.mem_append.1 hp with h1 | h2
          · exact hb2 p h1 w hw
          · rw [List.mem_singleton.1 h2] at hw
            exact hb3 w hw
        refine ⟨?_, ?_, ?_, ?_, ?_⟩
        · intro p hp
          rcases List.mem_append.1 hp with h1 | h2
          · exact hb1 p h1
          · rw [List.mem_singleton.1 h2]
            exact hcur
        · intro p hp w hw
          obtain ⟨f1, f2, f3, f4, _⟩ := hpw p hp w hw
          exact ⟨f1, f2, f3, f4⟩
        · intro t ht
          rcases List.mem_append.1 ht with h1 | h2
          · exact hb4 t h1
          · rw [List.mem_singleton.1 h2]
            exact hop
        · exact fun p hp w hw => (hpw p (List.dropLast_subset _ hp) w hw).2.2.2.2
        · exact fun p hp w hw => (hpw p (List.mem_of_mem_getLast? hp) w
            (List.dropLast_subset _ hw)).2.2.2.2
    · rw [show finishScan (runWords initSt (pySplit s)) =
          ((runWords initSt (pySplit s)).parts ++
            [(runWords initSt (pySplit s)).cur ++ [(runWords initSt (pySplit s)).curW]],
           (runWords initSt (pySplit s)).seps) from by
        unfold finishScan; rw [if_neg hne, if_neg hop]]
      right
      rw [show orEmptySegment ((runWords initSt (pySplit s)).parts ++
          [(runWords initSt (pySplit s)).cur ++ [(runWords initSt (pySplit s)).curW]]) =
          (runWords initSt (pySplit s)).parts ++
            [(runWords initSt (pySplit s)).cur ++ [(runWords initSt (pySplit s)).curW]] from by
        unfold orEmptySegment; rw [if_neg (by simp)]]
      refine ⟨?_, ?_, hb4, ?_, ?_⟩
      · intro p hp
        rcases List.mem_append.1 hp with h1 | h2
        · exact hb1 p h1
        · rw [List.mem_singleton.1 h2]
          simp
      · intro p hp w hw
        rcases List.mem_append.1 hp with h1 | h2
        · obtain ⟨f1, f2, f3, f4, _⟩ := hb2 p h1 w hw
          exact ⟨f1, f2, f3, f4⟩
        · rw [List.mem_singleton.1 h2] at hw
          rcases List.mem_append.1 hw with h3 | h4
          · obtain ⟨f1, f2, f3, f4, _⟩ := hb3 w h3
            exact ⟨f1, f2, f3, f4⟩
          · rw [List.mem_singleton.1 h4]
            exact ⟨hne, by simpa using hop, habs, hcl⟩
      · intro p hp w hw
        rw [List.dropLast_concat] at hp
        exact (hb2 p hp w hw).2.2.2.2
      · intro p hp w hw
        rw [List.getLast?_concat] at hp
        rw [(Option.some_inj.1 hp).symm] at hw
        rw [List.dropLast_concat] at hw
        exact (hb3 w hw).2.2.2.2

/-- The full round trip: rejoining a reconstructed token sequence with single
spaces and re-parsing it returns the same segments, with the separators
truncated to the `len(parts) - 1` that the reconstruction actually used. -/
theorem parse_join_reconstruct (pp : List (List Word)) (seps : List Word)
    (hppne : pp ≠ []) (hlen : pp.length ≤ seps.length + 1)
    (hpne : ∀ p ∈ pp, p ≠ [])
    (hwords : ∀ p ∈ pp, ∀ w ∈ p,
      w ≠ [] ∧ isChainOp w = false ∧ absorbable none w = true ∧ SpClean w)
    (hseps : ∀ s ∈ seps, isChainOp s = true)
    (hlastq : ∀ w ∈ (reconstruct pp seps).dropLast, qTrans none w = none) :
    parse_command (.str (joinWords (reconstruct pp seps))) =
      (pp, seps.take (pp.length - 1)) := by
  have htok : ∀ w ∈ reconstruct pp seps, w ≠ [] ∧ SpClean w ∧ absorbable none w = true := by
    intro w hw
    rcases mem_reconstruct w pp seps hw with ⟨p, hp, hwp⟩ | hs
    · obtain ⟨h1, _, h3, h4⟩ := hwords p hp w hwp
      exact ⟨h1, h4, h3⟩
    · obtain ⟨h1, h2, h3, _⟩ := chainOp_facts w (hseps w hs)
      exact ⟨h1, h3, h2⟩
  have hnl : '\n' ∉ joinWords (reconstruct pp seps) := by
    intro hmem
    rcases mem_joinWords '\n' _ hmem with ⟨t, ht, hc⟩ | habs
    · exact SpClean_no_newline t (htok t ht).2.1 hc
    · cases habs
  have hnorm := (normalize_join_tokens (reconstruct pp seps)
    (fun t ht => ⟨(htok t ht).1, (htok t ht).2.1⟩)).1
  rw [parse_command_str, if_neg hnl]
  unfold scanChars
  rw [show normalize (joinWords (reconstruct pp seps)) = joinWords (reconstruct pp seps)
    from hnorm]
  rw [foldl_scanStep_join_tokens (reconstruct pp seps) initSt rfl
    (fun w hw => (htok w hw).2.2) hlastq]
  rw [runTokens_reconstruct pp seps initSt rfl rfl hpne
    (fun p hp w hw => ⟨(hwords p hp w hw).1, (hwords p hp w hw).2.1⟩) hseps hppne hlen]
  show (orEmptySegment pp, seps.take (pp.length - 1)) = _
  rw [show orEmptySegment pp = pp from by unfold orEmptySegment; rw [if_neg hppne]]

/-- C9 — confirmed. For a single-line textual input without chain operators
(the parse yields one segment and no operators), rejoining the segment's
tokens with single spaces and tokenizing again returns the same segment:
tokenize ∘ rejoin is the identity on tokenizer output. -/
theorem C9_roundtrip (s : List Char) (hnl : '\n' ∉ s)
    (hops : (parse_command (.str s)).2 = [])
    (seg : List Word) (hseg : (parse_command (.str s)).1 = [seg]) :
    parse_command (.str (joinWords seg)) = ([seg], []) := by
  rcases parse_str_facts s hnl with ⟨he1, _⟩ | ⟨f1, f2, _, _, f5⟩
  · rw [hseg] at he1
    have h0 : seg = [] := by simpa using he1
    subst h0
    rfl
  · have hsegne : seg ≠ [] := f1 seg (by rw [hseg]; simp)
    have hrec : reconstruct [seg] [] = seg := by
      show seg ++ reconWithSeps [] [] = seg
      simp [reconWithSeps]
    have hmain := parse_join_reconstruct [seg] [] (by simp) (by simp)
      (fun p hp => by rw [List.mem_singleton.1 hp]; exact hsegne)
      (fun p hp w hw => by
        rw [List.mem_singleton.1 hp] at hw
        exact f2 seg (by rw [hseg]; simp) w hw)
      (fun t ht => absurd ht (List.not_mem_nil t))
      (by
        rw [hrec]
        intro w hw
        exact f5 seg (by rw [hseg]; rfl) w hw)
    rw [hrec] at hmain
    simpa using hmain

/-! ## Idempotence of the elevation rewrite (claim C7) -/

theorem dropLast_reconstruct_endq : ∀ (pp : List (List Word)) (seps : List Word),
    (∀ p ∈ pp, p ≠ []) → (∀ x ∈ seps, isChainOp x = true) →
    (∀ p ∈ pp.dropLast, ∀ w ∈ p, qTrans none w = none) →
    (∀ p, pp.getLast? = some p → ∀ w ∈ p.dropLast, qTrans none w = none) →
    ∀ w ∈ (reconstruct pp seps).dropLast, qTrans none w = none := by
  intro pp
  induction pp with
  | nil => intro seps _ _ _ _ w hw; cases hw
  | cons p pp' ih =>
    intro seps hne hops hQ hR w hw
    cases pp' with
    | nil =>
      rw [show reconstruct [p] seps = p from by
        show p ++ reconWithSeps [] seps = p
        simp [reconWithSeps]] at hw
      exact hR p rfl w hw
    | cons p2 pp'' =>
      have hp2 : p2 ≠ [] := hne p2 (by simp)
      have hQ' : ∀ q ∈ (p2 :: pp'').dropLast, ∀ w ∈ q, qTrans none w = none := by
        intro q hq
        apply hQ
        rw [List.dropLast_cons₂]
        simp [hq]
      have hR' : ∀ q, (p2 :: pp'').getLast? = some q →
          ∀ w ∈ q.dropLast, qTrans none w = none := by
        intro q hq
        exact hR q (by rw [List.getLast?_cons_cons]; exact hq)
      have hTne : reconstruct (p2 :: pp'') (seps.tail) ≠ [] ∧
          reconstruct (p2 :: pp'') [] ≠ [] := by
        constructor <;> · show p2 ++ _ ≠ []; simp [hp2]
      have hpQ : ∀ w ∈ p, qTrans none w = none := by
        intro w hw'
        exact hQ p (by rw [List.dropLast_cons₂]; simp) w hw'
      cases seps with
      | nil =>
        rw [show reconstruct (p :: p2 :: pp'') [] = p ++ reconstruct (p2 :: pp'') [] from rfl,
          List.dropLast_append_of_ne_nil _ hTne.2] at hw
        rcases List.mem_append.1 hw with h1 | h2
        · exact hpQ w h1
        · exact ih [] (fun q hq => hne q (by simp [hq])) (by simp) hQ' hR' w h2
      | cons x xs =>
        rw [show reconstruct (p :: p2 :: pp'') (x :: xs) =
            p ++ x :: reconstruct (p2 :: pp'') xs from rfl,
          List.dropLast_append_of_ne_nil _ (by simp)] at hw
        rcases List.mem_append.1 hw with h1 | h2
        · exact hpQ w h1
        · rw [show (x :: reconstruct (p2 :: pp'') xs).dropLast =
              x :: (reconstruct (p2 :: pp'') xs).dropLast from by
            rw [List.dropLast_cons_of_ne_nil]
            · exact hTne.1] at h2
          rcases List.mem_cons.1 h2 with rfl | h3
          · exact (chainOp_facts w (hops w (by simp))).2.2.2
          · exact ih xs (fun q hq => hne q (by simp [hq]))
              (fun y hy => hops y (by simp [hy])) hQ' hR' w h3

theorem reconWithSeps_take : ∀ (rest : List (List Word)) (seps : List Word),
    reconWithSeps rest (seps.take rest.length) = reconWithSeps rest seps := by
  intro rest
  induction rest with
  | nil => intro seps; rfl
  | cons p rest' ih =>
    intro seps
    cases seps with
    | nil => rfl
    | cons x xs =>
      show reconWithSeps (p :: rest') (x :: xs.take rest'.length) = _
      show x :: (p ++ reconWithSeps rest' (xs.take rest'.length)) = _
      rw [ih xs]
      rfl

theorem reconstruct_take (pp : List (List Word)) (seps : List Word) (h : pp ≠ []) :
    reconstruct pp (seps.take (pp.length - 1)) = reconstruct pp seps := by
  cases pp with
  | nil => cases h rfl
  | cons p rest =>
    show p ++ reconWithSeps rest (seps.take ((p :: rest).length - 1)) = _
    rw [show (p :: rest).length - 1 = rest.length from by simp]
    rw [reconWithSeps_take rest seps]
    rfl

theorem lowerW_append (a b : Word) : lowerW (a ++ b) = lowerW a ++ lowerW b :=
  List.map_append ..

theorem execCheckFails_not_abs (env : Env) (w : Word) (h : isAbsW w = false) :
    execCheckFails env w = false := by
  unfold execCheckFails
  rw [h]
  simp only [Bool.false_and, Bool.false_eq_true, if_false]
  cases hwp : env.whichPath w with
  | none => rfl
  | some p => simp [env.which_executable w p hwp]

theorem space_not_privileged (v : Word) (hsp : ' ' ∈ v) :
    v ∉ sudoCommands ∧ v ≠ netW := by
  constructor
  · intro hmem
    have h : ∀ c ∈ sudoCommands, ' ' ∉ c := by decide
    exact h v hmem hsp
  · intro h
    rw [h] at hsp
    exact (by decide : ' ' ∉ netW) hsp

theorem needsSudoPart_single_next (env : Env) (hw : env.isWindows = false)
    (t : Word) (hnet : lowerW t ≠ netW) (hmem : lowerW t ∉ sudoCommands)
    (habsf : isAbsW t = false) : needsSudoPart env [t] = .next := by
  unfold needsSudoPart
  rw [hw]
  simp only [Bool.false_eq_true, if_false]
  rw [if_neg (fun h => by simpa [restHeadIsUser] using h.2), if_neg hmem,
    if_neg (by simp [execCheckFails_not_abs env t habsf])]

theorem needs_single_of_next (env : Env) (t : Word)
    (h : needsSudoPart env [t] = .next) :
    command_needs_sudo env (.list [t]) = false := by
  unfold command_needs_sudo
  cases hs : env.sudoAvailable with
  | false => rfl
  | true =>
    simp only [Bool.not_true, Bool.false_eq_true, if_false, parse_command]
    by_cases hsw : ([[t]].any startsWithSudo) = true
    · rw [if_pos hsw]
    · rw [if_neg hsw]
      unfold needsSudoParts
      rw [h]
      rfl

/-- On Unix a processed part is the original or the original with the sudo
token prepended. -/
theorem processPart_cases (env : Env) (hw : env.isWindows = false) (p : List Word) :
    processPart env p = p ∨ processPart env p = sudoW :: p := by
  unfold processPart
  rw [hw]
  simp only [Bool.false_eq_true, if_false]
  cases p with
  | nil => exact Or.inl rfl
  | cons w rest =>
    by_cases hc : lowerW w ≠ sudoW ∧ command_needs_sudo env (.list (w :: rest)) = true
    · right
      show (if lowerW w ≠ sudoW ∧ command_needs_sudo env (Cmd.list (w :: rest)) = true
        then sudoW :: w :: rest else w :: rest) = _
      rw [if_pos hc]
    · left
      show (if lowerW w ≠ sudoW ∧ command_needs_sudo env (Cmd.list (w :: rest)) = true
        then sudoW :: w :: rest else w :: rest) = _
      rw [if_neg hc]

/-- The Unix rewrite is a per-segment fixed point: rewriting a rewritten
segment changes nothing. -/
theorem processPart_fixed (env : Env) (hw : env.isWindows = false) (p : List Word) :
    processPart env (processPart env p) = processPart env p := by
  rcases processPart_cases env hw p with h | h
  · rw [h, h]
  · rw [h]
    exact processPart_sudo_headed env hw sudoW p (by decide)

theorem command_needs_sudo_prefixed (env : Env) (w : Word) (rest : List Word)
    (hh : lowerW w = sudoW) : command_needs_sudo env (.list (w :: rest)) = false := by
  unfold command_needs_sudo
  cases hs : env.sudoAvailable with
  | false => rfl
  | true =>
    simp only [Bool.not_true, Bool.false_eq_true, if_false, parse_command]
    rw [if_pos]
    simp [startsWithSudo, hh]

/-- The facts needed of a `sudo` token the rewrite inserts. -/
theorem sudoW_word_facts :
    sudoW ≠ [] ∧ isChainOp sudoW = false ∧ absorbable none sudoW = true ∧
      SpClean sudoW ∧ qTrans none sudoW = none := by
  refine ⟨by decide, by decide, by decide, by decide, by decide⟩

/-- The rewritten textual command is a fixed point of the rewrite: running
`run_subprocess`'s rewrite on its own output changes nothing. -/
theorem finalCmdStr_fixed (env : Env) (hw : env.isWindows = false) (s : List Char) :
    ∃ t, finalCmdStr env s = some t ∧ finalCmdStr env t = some t := by
  by_cases hnl : '\n' ∈ s
  · have hsnil : s ≠ [] := by
      intro h0
      rw [h0] at hnl
      cases hnl
    have hfirst : ∀ (u : List Char), '\n' ∈ u →
        finalCmdStr env u = some (joinWords (processPart env [u])) := by
      intro u hu
      unfold finalCmdStr finalTokens
      rw [parse_command_str, if_pos hu]
      rw [if_neg (by simp)]
      rw [show processParts env [[u]] = [processPart env [u]] from by
        unfold processParts
        rw [if_neg (by simp [show u ≠ [] from fun h0 => by rw [h0] at hu; cases hu])]
        rfl]
      simp [reconstruct, reconWithSeps]
    rcases processPart_cases env hw [s] with h | h
    · refine ⟨s, ?_, ?_⟩ <;> · rw [hfirst s hnl, h]; rfl
    · refine ⟨sudoW ++ ' ' :: s, ?_, ?_⟩
      · rw [hfirst s hnl, h]
        rfl
      · have hnlt : '\n' ∈ sudoW ++ ' ' :: s := by simp [hnl]
        rw [hfirst _ hnlt]
        have hsp : ' ' ∈ lowerW (sudoW ++ ' ' :: s) := by
          rw [lowerW_append]
          refine List.mem_append_right _ ?_
          show ' ' ∈ lowerW (' ' :: s)
          simp [lowerW]
        have hpriv := space_not_privileged (lowerW (sudoW ++ ' ' :: s)) hsp
        have habsf : isAbsW (sudoW ++ ' ' :: s) = false := rfl
        have hneeds := needs_single_of_next env (sudoW ++ ' ' :: s)
          (needsSudoPart_single_next env hw _ hpriv.2 hpriv.1 habsf)
        rw [show processPart env [sudoW ++ ' ' :: s] = [sudoW ++ ' ' :: s] from by
          unfold processPart
          rw [hw]
          simp only [Bool.false_eq_true, if_false]
          show (if lowerW (sudoW ++ ' ' :: s) ≠ sudoW ∧
              command_needs_sudo env (Cmd.list [sudoW ++ ' ' :: s]) = true
            then sudoW :: [sudoW ++ ' ' :: s] else [sudoW ++ ' ' :: s]) = _
          rw [if_neg (fun hc => by rw [hneeds] at hc; exact absurd hc.2 (by simp))]]
        rfl
  · rcases parse_str_facts s hnl with ⟨he1, he2⟩ | ⟨f1, f2, f3, f4, f5⟩
    · refine ⟨[], ?_, ?_⟩
      · unfold finalCmdStr finalTokens
        rw [he1, he2]
        rfl
      · unfold finalCmdStr finalTokens
        rfl
    · have hPne : (parse_command (.str s)).1 ≠ [] := (parse_segment_count (.str s)).1
      have hmap : processParts env (parse_command (.str s)).1 =
          (parse_command (.str s)).1.map (processPart env) :=
        processParts_map env _ f1
      have hppne : (parse_command (.str s)).1.map (processPart env) ≠ [] := by
        simpa using hPne
      have hlen : ((parse_command (.str s)).1.map (processPart env)).length ≤
          (parse_command (.str s)).2.length + 1 := by
        rcases (parse_segment_count (.str s)).2 with h | h
        · rw [List.length_map]
          omega
        · rw [List.length_map]
          omega
      have hpne' : ∀ p ∈ (parse_command (.str s)).1.map (processPart env), p ≠ [] := by
        intro p hp
        obtain ⟨q, hq, rfl⟩ := List.mem_map.1 hp
        rcases processPart_cases env hw q with h | h <;> rw [h]
        · exact f1 q hq
        · simp
      have hwords' : ∀ p ∈ (parse_command (.str s)).1.map (processPart env), ∀ w ∈ p,
          w ≠ [] ∧ isChainOp w = false ∧ absorbable none w = true ∧ SpClean w := by
        intro p hp w hw'
        obtain ⟨q, hq, rfl⟩ := List.mem_map.1 hp
        rcases processPart_cases env hw q with h | h
        · rw [h] at hw'
          exact f2 q hq w hw'
        · rw [h] at hw'
          rcases List.mem_cons.1 hw' with rfl | h2
          · exact ⟨sudoW_word_facts.1, sudoW_word_facts.2.1, sudoW_word_facts.2.2.1,
              sudoW_word_facts.2.2.2.1⟩
          · exact f2 q hq w h2
      have hQ' : ∀ p ∈ ((parse_command (.str s)).1.map (processPart env)).dropLast,
          ∀ w ∈ p, qTrans none w = none := by
        intro p hp w hw'
        rw [← List.map_dropLast] at hp
        obtain ⟨q, hq, rfl⟩ := List.mem_map.1 hp
        rcases processPart_cases env hw q with h | h
        · rw [h] at hw'
          exact f4 q hq w hw'
        · rw [h] at hw'
          rcases List.mem_cons.1 hw' with rfl | h2
          · exact sudoW_word_facts.2.2.2.2
          · exact f4 q hq w h2
      have hR' : ∀ p, ((parse_command (.str s)).1.map (processPart env)).getLast? = some p →
          ∀ w ∈ p.dropLast, qTrans none w = none := by
        intro p hp w hw'
        rw [List.getLast?_map] at hp
        obtain ⟨q, hq, rfl⟩ := Option.map_eq_some'.1 hp
        have hqmem : q ∈ (parse_command (.str s)).1 := List.mem_of_mem_getLast? hq
        rcases processPart_cases env hw q with h | h
        · rw [h] at hw'
          exact f5 q hq w hw'
        · rw [h] at hw'
          rw [show (sudoW :: q).dropLast = sudoW :: q.dropLast from
            List.dropLast_cons_of_ne_nil (f1 q hqmem)] at hw'
          rcases List.mem_cons.1 hw' with rfl | h2
          · exact sudoW_word_facts.2.2.2.2
          · exact f5 q hq w h2
      have hparse2 := parse_join_reconstruct
        ((parse_command (.str s)).1.map (processPart env)) (parse_command (.str s)).2
        hppne hlen hpne' hwords' f3
        (dropLast_reconstruct_endq _ _ hpne' f3 hQ' hR')
      refine ⟨joinWords (reconstruct ((parse_command (.str s)).1.map (processPart env))
        (parse_command (.str s)).2), ?_, ?_⟩
      · unfold finalCmdStr finalTokens
        rw [if_neg hPne, hmap]
        rfl
      · unfold finalCmdStr finalTokens
        rw [hparse2]
        rw [if_neg (by simpa using hppne)]
        rw [processParts_map env _ hpne']
        rw [List.map_map]
        rw [show (processPart env ∘ processPart env) = processPart env from
          funext (processPart_fixed env hw)]
        rw [reconstruct_take _ _ hppne]
        rfl

/-- C7 — confirmed. On Unix the elevation rewrite is idempotent: a segment
already beginning with the sudo token makes `command_needs_sudo` false and is
left unchanged; for every textual command (single line or multiline) the
rewrite of the rewritten command equals the rewritten command; and
`"sudo apt update"` with the elevation tool available is returned
unchanged. -/
theorem C7_rewrite_idempotent :
    (∀ (env : Env), env.isWindows = false →
      ∀ (w : Word) (rest : List Word), lowerW w = sudoW →
        command_needs_sudo env (.list (w :: rest)) = false ∧
        processPart env (w :: rest) = w :: rest) ∧
    (∀ (env : Env), env.isWindows = false → ∀ (s : List Char),
      ∃ t, finalCmdStr env s = some t ∧ finalCmdStr env t = some t) ∧
    finalCmdStr env0 "sudo apt update".data = some "sudo apt update".data :=
  ⟨fun env hw w rest hh =>
      ⟨command_needs_sudo_prefixed env w rest hh,
       processPart_sudo_headed env hw w rest hh⟩,
    fun env hw s => finalCmdStr_fixed env hw s, by decide⟩

/-- Witness for C7 at the segment `sudo apt update`. -/
theorem C7_rewrite_idempotent_witness :
    command_needs_sudo env0 (.list ["sudo".data, "apt".data, "update".data]) = false ∧
    processPart env0 ["sudo".data, "apt".data, "update".data] =
      ["sudo".data, "apt".data, "update".data] :=
  C7_rewrite_idempotent.1 env0 rfl "sudo".data ["apt".data, "update".data] (by decide)

/-- Witness for C9 at the quoted input `echo 'a b' done`. -/
theorem C9_roundtrip_witness :
    parse_command (.str (joinWords
      ["echo".data, [squote] ++ "a b".data ++ [squote], "done".data])) =
      ([["echo".data, [squote] ++ "a b".data ++ [squote], "done".data]], []) :=
  C9_roundtrip ("echo ".data ++ [squote] ++ "a b".data ++ [squote] ++ " done".data)
    (by decide) (by decide)
    ["echo".data, [squote] ++ "a b".data ++ [squote], "done".data] (by decide)

/-! ## The spawn-time argv split (claim C8)

When the input was textual and no shell was requested, `run_subprocess` does
`final_cmd = shlex.split(final_cmd)` before spawning. This models Python's
`shlex.split` (posix mode, whitespace_split, no comments): quotes group
characters and are stripped from the token, a backslash escapes the next
character (inside double quotes only `\` and `"`), and an unterminated
quote or trailing escape raises `ValueError`. -/

/-- `shlex.whitespace` (note: narrower than `str.isspace`). -/
def shlexIsSpace (c : Char) : Bool :=
  c == ' ' || c == '\t' || c == '\r' || c == '\n'

/-- Lexer state of `shlex.read_token`. -/
inductive ShMode where
  | ws
  | word
  | quoted (q : Char)
  | escaped (inDq : Bool)
deriving DecidableEq, Repr

/-- The `ValueError`s `shlex` raises at end of input. -/
inductive ShlexErr where
  | noClosingQuote
  | noEscapedChar
deriving DecidableEq, Repr

/-- Token emission: posix mode yields the token when it is non-empty or was
quoted (so `''` produces an empty argv entry). -/
def shlexFlush (tok : Word) (quoted : Bool) : List Word :=
  if tok ≠ [] ∨ quoted = true then [tok] else []

/-- The `shlex.read_token` loop over the whole input. -/
def shlexGo : List Char → ShMode → Word → Bool → List Word → Except ShlexErr (List Word)
  | [], mode, tok, quoted, acc =>
    match mode with
    | .ws => .ok acc
    | .word => .ok (acc ++ shlexFlush tok quoted)
    | .quoted _ => .error .noClosingQuote
    | .escaped _ => .error .noEscapedChar
  | c :: cs, mode, tok, quoted, acc =>
    match mode with
    | .ws =>
      if shlexIsSpace c then shlexGo cs .ws [] false acc
      else if isQuoteChar c then shlexGo cs (.quoted c) tok true acc
      else if c = bslash then shlexGo cs (.escaped false) tok quoted acc
      else shlexGo cs .word (tok ++ [c]) quoted acc
    | .word =>
      if shlexIsSpace c then shlexGo cs .ws [] false (acc ++ shlexFlush tok quoted)
      else if isQuoteChar c then shlexGo cs (.quoted c) tok true acc
      else if c = bslash then shlexGo cs (.escaped false) tok quoted acc
      else shlexGo cs .word (tok ++ [c]) quoted acc
    | .quoted q =>
      if c = q then shlexGo cs .word tok quoted acc
      else if q = dquote ∧ c = bslash then shlexGo cs (.escaped true) tok quoted acc
      else shlexGo cs (.quoted q) (tok ++ [c]) quoted acc
    | .escaped inDq =>
      shlexGo cs (if inDq then .quoted dquote else .word)
        (if inDq ∧ c ≠ bslash ∧ c ≠ dquote then tok ++ [bslash, c] else tok ++ [c])
        quoted acc

/-- `shlex.split(s)` (posix, whitespace_split). -/
def shlexSplit (s : List Char) : Except ShlexErr (List Word) :=
  shlexGo s .ws [] false []

/-- A character on which the two tokenizations cannot disagree: not a quote,
not a backslash, and whitespace only as a plain space. -/
def plainChar (c : Char) : Prop :=
  isQuoteChar c = false ∧ c ≠ bslash ∧ (pyIsSpace c = true → c = ' ')

instance (c : Char) : Decidable (plainChar c) :=
  inferInstanceAs (Decidable (_ ∧ _ ∧ _))

theorem shlexIsSpace_eq_pyIsSpace (c : Char) (h : plainChar c) :
    shlexIsSpace c = pyIsSpace c := by
  obtain ⟨_, _, hws⟩ := h
  by_cases hp : pyIsSpace c = true
  · rw [hp, hws hp]
    rfl
  · rw [Bool.not_eq_true] at hp
    rw [hp]
    revert hp
    unfold pyIsSpace shlexIsSpace
    intro hp
    simp only [Bool.or_eq_false_iff] at hp
    simp [hp.1.1.1.1.1, hp.1.1.1.1.2, hp.1.1.1.2, hp.1.1.2]

/-- On plain characters `shlex.split` is exactly whitespace splitting. -/
theorem shlexGo_plain : ∀ (cs : List Char), (∀ c ∈ cs, plainChar c) →
    ∀ (acc : List Word),
      (∀ tok : Word, tok ≠ [] →
        shlexGo cs .word tok false acc = .ok (acc ++ pySplitGo tok cs)) ∧
      shlexGo cs .ws [] false acc = .ok (acc ++ pySplit cs) := by
  intro cs
  induction cs with
  | nil =>
    intro _ acc
    constructor
    · intro tok htok
      show Except.ok (acc ++ shlexFlush tok false) = _
      rw [show shlexFlush tok false = [tok] from by simp [shlexFlush, htok]]
      rw [show pySplitGo tok [] = [tok] from by simp [pySplitGo, htok]]
    · show Except.ok acc = .ok (acc ++ pySplit [])
      rw [show pySplit [] = [] from rfl]
      rw [List.append_nil]
  | cons c cs' ih =>
    intro h acc
    have hc := h c (by simp)
    have ih' := ih (fun x hx => h x (by simp [hx]))
    have hspace := shlexIsSpace_eq_pyIsSpace c hc
    constructor
    · intro tok htok
      by_cases hws : pyIsSpace c = true
      · show (if shlexIsSpace c then shlexGo cs' .ws [] false (acc ++ shlexFlush tok false)
          else _) = _
        rw [show shlexIsSpace c = true from hspace ▸ hws, if_pos rfl]
        rw [show shlexFlush tok false = [tok] from by simp [shlexFlush, htok]]
        rw [(ih' (acc ++ [tok])).2]
        rw [show pySplitGo tok (c :: cs') = tok :: pySplit cs' from by
          simp [pySplitGo, hws, htok, pySplit]]
        simp
      · show (if shlexIsSpace c then _
          else if isQuoteChar c then _
          else if c = bslash then _
          else shlexGo cs' .word (tok ++ [c]) false acc) = _
        rw [show shlexIsSpace c = false from hspace ▸ (Bool.not_eq_true _ ▸ hws)]
        rw [if_neg (by simp), if_neg (by simp [hc.1]), if_neg hc.2.1]
        rw [(ih' acc).1 (tok ++ [c]) (by simp)]
        rw [show pySplitGo tok (c :: cs') = pySplitGo (tok ++ [c]) cs' from by
          simp [pySplitGo, hws]]
    · by_cases hws : pyIsSpace c = true
      · show (if shlexIsSpace c then shlexGo cs' .ws [] false acc else _) = _
        rw [show shlexIsSpace c = true from hspace ▸ hws, if_pos rfl]
        rw [(ih' acc).2]
        rw [show pySplit (c :: cs') = pySplit cs' from by
          simp [pySplit, pySplitGo, hws]]
      · show (if shlexIsSpace c then _
          else if isQuoteChar c then _
          else if c = bslash then _
          else shlexGo cs' .word ([] ++ [c]) false acc) = _
        rw [show shlexIsSpace c = false from hspace ▸ (Bool.not_eq_true _ ▸ hws)]
        rw [if_neg (by simp), if_neg (by simp [hc.1]), if_neg hc.2.1]
        rw [(ih' acc).1 ([] ++ [c]) (by simp)]
        rw [show pySplit (c :: cs') = pySplitGo ([] ++ [c]) cs' from by
          simp [pySplit, pySplitGo, hws]]

theorem pySplitGo_chars : ∀ (cs : List Char) (acc : Word),
    ∀ f ∈ pySplitGo acc cs, ∀ c ∈ f, c ∈ acc ∨ c ∈ cs := by
  intro cs
  induction cs with
  | nil =>
    intro acc f hf c hcf
    by_cases ha : acc = []
    · simp [pySplitGo, ha] at hf
    · simp [pySplitGo, ha] at hf
      left
      rw [← hf]
      exact hcf
  | cons x cs' ih =>
    intro acc f hf c hcf
    by_cases hx : pyIsSpace x = true
    · by_cases ha : acc = []
      · rw [show pySplitGo acc (x :: cs') = pySplitGo [] cs' by simp [pySplitGo, hx, ha]] at hf
        rcases ih [] f hf c hcf with h0 | h0
        · cases h0
        · exact Or.inr (by simp [h0])
      · rw [show pySplitGo acc (x :: cs') = acc :: pySplitGo [] cs' by
          simp [pySplitGo, hx, ha]] at hf
        rcases List.mem_cons.1 hf with rfl | hf'
        · exact Or.inl hcf
        · rcases ih [] f hf' c hcf with h0 | h0
          · cases h0
          · exact Or.inr (by simp [h0])
    · rw [show pySplitGo acc (x :: cs') = pySplitGo (acc ++ [x]) cs' by
        simp [pySplitGo, hx]] at hf
      rcases ih (acc ++ [x]) f hf c hcf with h0 | h0
      · rcases List.mem_append.1 h0 with h1 | h1
        · exact Or.inl h1
        · exact Or.inr (by simp [List.mem_singleton.1 h1])
      · exact Or.inr (by simp [h0])

/-- `w` contains no quote characters. -/
def noQuotesW (w : Word) : Bool := w.all (fun c => !isQuoteChar c)

theorem qTrans_noQuotes (w : Word) : ∀ (q : Option Char), noQuotesW w = true →
    qTrans q w = q := by
  induction w with
  | nil => intro q _; rfl
  | cons c cs ih =>
    intro q h
    simp only [noQuotesW, List.all_cons, Bool.and_eq_true, Bool.not_eq_true'] at h
    show qTrans (qStepChar q c) cs = q
    rw [show qStepChar q c = q from by unfold qStepChar; rw [if_neg (by simp [h.1])]]
    exact ih q (by simpa [noQuotesW] using h.2)

theorem runWords_eq_runTokens (W : List Word) (hq : ∀ w ∈ W, noQuotesW w = true) :
    ∀ (st : ScanSt), st.q = none → runWords st W = runTokens st W := by
  induction W with
  | nil => intro st _; rfl
  | cons w ws ih =>
    intro st hst
    cases ws with
    | nil => rfl
    | cons x xs =>
      show runWords (spaceStep (absorbW st w)) (x :: xs) = _
      have hqw : (absorbW st w).q = none := by
        show qTrans st.q w = none
        rw [qTrans_noQuotes w st.q (hq w (by simp)), hst]
      rw [show spaceStep (absorbW st w) = flushWord (absorbW st w) from by
        unfold spaceStep; rw [if_pos hqw]]
      rw [ih (fun u hu => hq u (by simp [hu])) _ (by rw [flushWord_q]; exact hqw)]
      rw [runTokens_cons_ne st w (x :: xs) (by simp)]

/-- On quote-free input the tokenizer is plain whitespace splitting: one
segment holding exactly the whitespace-split words, no operators. -/
theorem parse_plain (s : List Char)
    (hplain : ∀ c ∈ s, plainChar c)
    (hnoop : ∀ w ∈ pySplit s, isChainOp w = false) :
    parse_command (.str s) = ([pySplit s], []) := by
  have hnl : '\n' ∉ s := by
    intro hmem
    have := (hplain '\n' hmem).2.2 (by decide)
    cases this
  have hWf : ∀ w ∈ pySplit s, (spaceFree w = true ∧ w ≠ []) ∧ noQuotesW w = true := by
    intro w hw
    refine ⟨⟨pySplitGo_frags_spaceFree s [] rfl w hw, pySplitGo_frags_ne s [] w hw⟩, ?_⟩
    simp only [noQuotesW, List.all_eq_true, Bool.not_eq_true']
    intro c hc
    rcases pySplitGo_chars s [] w hw c hc with h0 | h0
    · cases h0
    · exact (hplain c h0).1
  rw [parse_command_str, if_neg hnl]
  unfold scanChars
  rw [show normalize s = joinWords (pySplit s) from rfl]
  rw [foldl_scanStep_join (pySplit s) initSt (fun w hw => (hWf w hw).1.1)]
  rw [runWords_eq_runTokens (pySplit s) (fun w hw => (hWf w hw).2) initSt rfl]
  cases hsp : pySplit s with
  | nil => rfl
  | cons w ws =>
    have hrt := (runTokens_part (w :: ws) initSt rfl (fun u hu => by
      rw [← hsp] at hu
      exact ⟨(hWf u hu).1.2, hnoop u hu⟩)).2 (by simp)
    rw [hrt]
    rfl

/-- C8 — corrected. As stated the claim is false: the spawn-time
`shlex.split` strips quote characters while the §4.1 tokenizer preserves
them, so on `echo 'a b'` the tokenizer yields the token `'a b'` (with
quotes) while the argv entry is `a b` (without). -/
theorem C8_counterexample_quote_treatment :
    (parse_command (.str ("echo ".data ++ [squote] ++ "a b".data ++ [squote]))).1 =
      [["echo".data, [squote] ++ "a b".data ++ [squote]]] ∧
    shlexSplit ("echo ".data ++ [squote] ++ "a b".data ++ [squote]) =
      .ok ["echo".data, "a b".data] ∧
    ¬(["echo".data, "a b".data] =
      ["echo".data, [squote] ++ "a b".data ++ [squote]]) := by
  refine ⟨by decide, rfl, by decide⟩

/-- C8 — amended claim: the two tokenizations agree exactly on the plain
fragment — commands containing no quote characters, no backslash, no
whitespace other than spaces, and no chain-operator words. There both equal
whitespace splitting: the parse is one segment holding the split words and
`shlex.split` returns the same words. With quote characters present they
disagree (the tokenizer keeps quotes, `shlex` strips them). -/
theorem C8_spawn_split_amended (s : List Char)
    (hplain : ∀ c ∈ s, plainChar c)
    (hnoop : ∀ w ∈ pySplit s, isChainOp w = false) :
    parse_command (.str s) = ([pySplit s], []) ∧
    shlexSplit s = .ok (pySplit s) := by
  refine ⟨parse_plain s hplain hnoop, ?_⟩
  show shlexGo s .ws [] false [] = _
  rw [(shlexGo_plain s hplain []).2]
  rfl

/-- Witness for C8 at the input `apt update`. -/
theorem C8_spawn_split_amended_witness :
    parse_command (.str "apt update".data) = ([pySplit "apt update".data], []) ∧
    shlexSplit "apt update".data = .ok (pySplit "apt update".data) :=
  C8_spawn_split_amended "apt update".data (by decide) (by decide)

/-! ## Malformed input handling (claim C4) -/

/-- What `run_subprocess` is about to hand to `subprocess.run`: an argv list
(textual input, shell not requested, after `shlex.split`) or the final
string itself (shell requested). -/
inductive SpawnCmd where
  | argv (ws : List Word)
  | shellStr (s : List Char)
deriving DecidableEq, Repr

/-- `run_subprocess` for textual input up to the command value passed to
`subprocess.run`: the rewrite builds the final string; then, when shell is
not requested, `final_cmd = shlex.split(final_cmd)` runs before the `try`
block, and its `ValueError` on an unbalanced quote propagates to the caller
with no process spawned. `none` is the `raise ValueError("Empty command")`
branch. -/
def prepareSpawn (env : Env) (s : List Char) (useShell : Bool) :
    Option (Except ShlexErr SpawnCmd) :=
  match finalCmdStr env s with
  | none => none
  | some t =>
    if useShell then some (.ok (.shellStr t))
    else
      match shlexSplit t with
      | .ok ws => some (.ok (.argv ws))
      | .error e => some (.error e)

/-- The parse and rewrite layers never raise: the empty-parse `ValueError`
is unreachable because the tokenizer always returns at least one segment. -/
theorem finalTokens_isSome (env : Env) (cmd : Cmd) :
    (finalTokens env cmd).isSome = true := by
  unfold finalTokens
  rw [if_neg (parse_segment_count cmd).1]
  rfl

/-- C4 — corrected. The claim fails for the operator-position class of
malformed input: on the trailing-operator command `"a &&"` no error of any
kind is surfaced — the parse succeeds, the rewrite succeeds, the spawn-time
split succeeds, and `subprocess.run` receives the argv `["a"]`, so
execution is attempted on that malformed input. -/
theorem C4_counterexample_operator_executed :
    prepareSpawn env0 "a &&".data false = some (.ok (.argv [['a']])) := rfl

/-- C4 — amended claim: the parsing and decision layers perform no
malformed-input detection — a leading chain operator is silently dropped, a
trailing one is dropped at reconstruction, and such inputs proceed to
execution with no error; the `ValueError("Empty command")` guard is
unreachable. Unbalanced quotes pass through the tokenizer literally, and
only when the input is textual and shell invocation is not requested do
they surface an error before any spawn — the spawn-time `shlex.split`
raising `ValueError` (no closing quotation) — while with shell requested
the unbalanced-quote command is executed as-is. -/
theorem C4_malformed_handling_amended :
    (∀ (env : Env) (cmd : Cmd), (finalTokens env cmd).isSome = true) ∧
    prepareSpawn env0 ("&& a".data) false = some (.ok (.argv [['a']])) ∧
    prepareSpawn env0 ("echo ".data ++ [squote] ++ ['a']) false =
      some (.error .noClosingQuote) ∧
    prepareSpawn env0 ("echo ".data ++ [squote] ++ ['a']) true =
      some (.ok (.shellStr ("echo ".data ++ [squote] ++ ['a']))) :=
  ⟨finalTokens_isSome, rfl, rfl, rfl⟩

end WsOrch
